import Mathlib

/-!
Verification development for the covidcast database layer
(`src/acquisition/covidcast/database.py`).

The development shallowly embeds the staging, merge, deletion, metadata
aggregation and metadata cache operations of class `Database`.  Relational
tables are lists of records kept in insertion/scan order; the MySQL
statements of the source are translated one by one into pure functions on
this state.  Nullable float columns (`value`, `stderr`, `sample_size`) are
modelled as `Option Int`: none of the embedded operations performs float
arithmetic on them, they are only copied, compared for equality and stored,
so only their identity matters.
-/

namespace Covidcast

/-- One row of the `signal_history` / `signal_latest` tables as exposed by the
views `signal_history_v` / `signal_latest_v` (the views join the dimension
tables back onto the rows, so the row carries its `source`, `signal`,
`geo_type`, `geo_value` strings directly; surrogate dimension ids are elided
because the dimension registry is append-only and injective). -/
structure Row where
  signal_data_id : Nat
  source : String
  signal : String
  time_type : String
  geo_type : String
  geo_value : String
  time_value : Int
  issue : Int
  lag : Int
  value : Option Int
  stderr : Option Int
  sample_size : Option Int
  missing_value : Int
  missing_stderr : Int
  missing_sample_size : Int
  value_updated_timestamp : Int
deriving DecidableEq, Repr

/-- The natural key (source, signal, time_type, geo_type, geo_value,
time_value) identifying one logical metric. -/
structure NatKey where
  source : String
  signal : String
  time_type : String
  geo_type : String
  geo_value : String
  time_value : Int
deriving DecidableEq, Repr

/-- Natural key of a row. -/
def Row.natKey (r : Row) : NatKey :=
  ⟨r.source, r.signal, r.time_type, r.geo_type, r.geo_value, r.time_value⟩

/-- Full key = natural key + issue; identifies one immutable version. -/
def Row.fullKey (r : Row) : NatKey × Int := (r.natKey, r.issue)

/-- One row of the `signal_load` staging table: the same columns as a
history/latest row plus the tentative `is_latest_issue` flag. -/
structure LoadRow where
  row : Row
  is_latest_issue : Bool
deriving DecidableEq, Repr

/-- The database state operated on by `Database`: staging table, history
table, latest table, the two dimension registries, and the shared
AUTO_INCREMENT counter that generates `signal_data_id`s for staged rows. -/
structure DB where
  signal_load : List LoadRow
  signal_history : List Row
  signal_latest : List Row
  signal_dim : List (String × String)
  geo_dim : List (String × String)
  next_data_id : Nat
deriving DecidableEq, Repr

/-- The empty database (all tables empty). -/
def emptyDB : DB := ⟨[], [], [], [], [], 0⟩

/-- An incoming observation draft: the fields of `CovidcastRow` that
`insert_or_update_batch` reads when staging (`args` tuple order). -/
structure CovidcastRow where
  source : String
  signal : String
  time_type : String
  geo_type : String
  time_value : Int
  geo_value : String
  value : Option Int
  stderr : Option Int
  sample_size : Option Int
  issue : Int
  lag : Int
  missing_value : Int
  missing_stderr : Int
  missing_sample_size : Int
deriving DecidableEq, Repr

/-- Natural key of an observation draft. -/
def CovidcastRow.natKey (r : CovidcastRow) : NatKey :=
  ⟨r.source, r.signal, r.time_type, r.geo_type, r.geo_value, r.time_value⟩

/-- `insert_into_loader_sql` applied to one draft: a staging row stamped with
`value_updated_timestamp = UNIX_TIMESTAMP(NOW())` (the `now` argument), a
fresh `signal_data_id` from the AUTO_INCREMENT counter, and
`is_latest_issue = 1`. -/
def stageRow (now : Int) (id : Nat) (r : CovidcastRow) : LoadRow :=
  { row := { signal_data_id := id
             source := r.source
             signal := r.signal
             time_type := r.time_type
             geo_type := r.geo_type
             geo_value := r.geo_value
             time_value := r.time_value
             issue := r.issue
             lag := r.lag
             value := r.value
             stderr := r.stderr
             sample_size := r.sample_size
             missing_value := r.missing_value
             missing_stderr := r.missing_stderr
             missing_sample_size := r.missing_sample_size
             value_updated_timestamp := now }
    is_latest_issue := true }

/-- `executemany(insert_into_loader_sql, args)`: append the drafts to the
staging table, each with a fresh consecutive `signal_data_id`. -/
def stageRows (now : Int) (db : DB) (rows : List CovidcastRow) : DB :=
  { db with
      signal_load :=
        db.signal_load ++ rows.enum.map (fun p => stageRow now (db.next_data_id + p.1) p.2)
      next_data_id := db.next_data_id + rows.length }

/-- `fix_is_latest_issue_sql`: clear the tentative flag of every staged row
whose natural key already has a latest row with a strictly greater issue. -/
def fix_is_latest_issue (db : DB) : DB :=
  { db with
      signal_load := db.signal_load.map (fun lr =>
        if db.signal_latest.any (fun l =>
             decide (l.natKey = lr.row.natKey) && decide (lr.row.issue < l.issue))
        then { lr with is_latest_issue := false }
        else lr) }

/-- `signal_dim_add_new_load`: append every distinct (source, signal) pair
present in staging but absent from `signal_dim` (LEFT JOIN ... IS NULL). -/
def signal_dim_add_new_load (db : DB) : DB :=
  { db with
      signal_dim := db.signal_dim ++
        ((db.signal_load.map (fun lr => (lr.row.source, lr.row.signal))).dedup.filter
          (fun p => !(db.signal_dim.any (fun q => decide (q = p))))) }

/-- `geo_dim_add_new_load`: same for (geo_type, geo_value) pairs. -/
def geo_dim_add_new_load (db : DB) : DB :=
  { db with
      geo_dim := db.geo_dim ++
        ((db.signal_load.map (fun lr => (lr.row.geo_type, lr.row.geo_value))).dedup.filter
          (fun p => !(db.geo_dim.any (fun q => decide (q = p))))) }

/-- Whether a staged row finds partners in both dimension registries (the
INNER JOINs of `signal_history_load` / `signal_latest_load`). -/
def joinsDims (db : DB) (r : Row) : Bool :=
  db.signal_dim.any (fun p => decide (p = (r.source, r.signal))) &&
  db.geo_dim.any (fun p => decide (p = (r.geo_type, r.geo_value)))

/-- `INSERT ... ON DUPLICATE KEY UPDATE` into a table with unique key `keyf`:
if a row with the key is present, it is overwritten in place; every column of
the stored row is either part of the key (hence equal) or listed in the
UPDATE clause, so the stored row becomes exactly `r`; otherwise `r` is
appended. -/
def upsert {κ : Type} [DecidableEq κ] (keyf : Row → κ) (t : List Row) (r : Row) : List Row :=
  if t.any (fun h => decide (keyf h = keyf r)) then
    t.map (fun h => if keyf h = keyf r then r else h)
  else t ++ [r]

/-- `run_dbjobs`: dimension registration, history upsert (keyed by full key),
latest upsert (keyed by natural key, restricted to rows still flagged
`is_latest_issue = 1`), then targeted deletion of all staging rows. -/
def run_dbjobs (db : DB) : DB :=
  let db1 := signal_dim_add_new_load db
  let db2 := geo_dim_add_new_load db1
  let joined := db2.signal_load.filter (fun lr => joinsDims db2 lr.row)
  let hist := joined.foldl (fun t lr => upsert Row.fullKey t lr.row) db2.signal_history
  let lat := (joined.filter (fun lr => lr.is_latest_issue)).foldl
      (fun t lr => upsert Row.natKey t lr.row) db2.signal_latest
  { db2 with signal_history := hist, signal_latest := lat, signal_load := [] }

/-- One staged-batch merge as performed inside `insert_or_update_batch` for a
single batch: stage the drafts, run the `is_latest_issue` correction pass,
then run the merge coordinator. -/
def mergeStagedBatch (db : DB) (now : Int) (rows : List CovidcastRow) : DB :=
  run_dbjobs (fix_is_latest_issue (stageRows now db rows))

/-- `ceil(num_rows/batch_size)` for a positive batch size, as computed by
`math.ceil` on the float quotient. -/
def ceilDiv (a b : Nat) : Nat := (a + b - 1) / b

/-- The slice `cc_rows[start:end]` with `start = batch_num * batch_size` and
`end = min(num_rows, start + batch_size)`. -/
def batchSlice (rows : List CovidcastRow) (bs i : Nat) : List CovidcastRow :=
  (rows.drop (i * bs)).take bs

/-- The body of one iteration of the batch loop of `insert_or_update_batch`:
stage the slice, read the affected-row count reported by the connector
(`cursor.rowcount`, equal to the number of rows inserted when the store
reports counts), run `fix_is_latest_issue_sql`, run `run_dbjobs`, accumulate
the total and count the merge invocation.  The accumulator carries
(state, total, number of `run_dbjobs` invocations so far). -/
def loadBatchStep (now : Int) (cc_rows : List CovidcastRow) (bs : Nat)
    (acc : DB × Nat × Nat) (batch_num : Nat) : DB × Nat × Nat :=
  let args := batchSlice cc_rows bs batch_num
  let staged := stageRows now acc.1 args
  let modified_row_count := args.length
  let merged := run_dbjobs (fix_is_latest_issue staged)
  (merged, acc.2.1 + modified_row_count, acc.2.2 + 1)

/-- `insert_or_update_batch(cc_rows, batch_size)`.  Fails fatally (before
staging anything) when the staging table is non-empty; otherwise partitions
the input into consecutive batches and merges each one.  The error value
carries the (unchanged) database state at the moment of the raise; the ok
value is (final state, total merged-row count, number of merge invocations).
The source defaults `batch_size` to `num_rows` when it is falsy (0); the
connector is modelled as always reporting affected-row counts, so the total
never degrades to the "unknown" sentinel.  `commit_partial` mode is not
modelled (no claim depends on it). -/
def insert_or_update_batch (db : DB) (now : Int) (cc_rows : List CovidcastRow)
    (batch_size : Nat) : Except (String × DB) (DB × Nat × Nat) :=
  if db.signal_load.length ≠ 0 then
    .error ("Non-zero count in the load table!!!", db)
  else
    let num_rows := cc_rows.length
    let bs := if batch_size = 0 then num_rows else batch_size
    let num_batches := ceilDiv num_rows bs
    .ok ((List.range num_batches).foldl (loadBatchStep now cc_rows bs) (db, 0, 0))

/-! ### Deletion Engine (`delete_batch`) -/

/-- One parsed bulk-deletion request in the tuple field order documented by
`delete_batch` (geo_value, value, stderr, sample_size, issue, time_value,
geo_type, signal, source, time_type); `value`, `stderr` and `sample_size`
are carried but ignored by the resolution logic, exactly as in the source. -/
structure DeletionRow where
  geo_value : String
  value : Option Int
  stderr : Option Int
  sample_size : Option Int
  issue : Int
  time_value : Int
  geo_type : String
  signal : String
  source : String
  time_type : String
deriving DecidableEq, Repr

/-- Natural key of a deletion request. -/
def DeletionRow.natKey (d : DeletionRow) : NatKey :=
  ⟨d.source, d.signal, d.time_type, d.geo_type, d.geo_value, d.time_value⟩

/-- Full key of a deletion request. -/
def DeletionRow.fullKey (d : DeletionRow) : NatKey × Int := (d.natKey, d.issue)

/-- A deletion request as read from a delimited file: the same fields
without `time_type`, which `load_tmp_table_infile_sql` defaults to "day". -/
structure CsvDeletionRow where
  geo_value : String
  value : Option Int
  stderr : Option Int
  sample_size : Option Int
  issue : Int
  time_value : Int
  geo_type : String
  signal : String
  source : String
deriving DecidableEq, Repr

/-- `SET time_type="day"` applied by the INFILE load. -/
def CsvDeletionRow.toDeletionRow (c : CsvDeletionRow) : DeletionRow :=
  ⟨c.geo_value, c.value, c.stderr, c.sample_size, c.issue, c.time_value,
   c.geo_type, c.signal, c.source, "day"⟩

/-- The `cc_deletions` argument of `delete_batch`: a file path (whose parsed
contents we carry, since `LOAD DATA INFILE` reads them from disk), a list of
tuples, or a value of any other Python type. -/
inductive CcDeletions where
  | csvFile (path : String) (parsed : List CsvDeletionRow)
  | tupleList (rows : List DeletionRow)
  | otherType (descr : String)
deriving Repr

/-- One row of the scratch relation `tmp_delete_table`: a staged deletion
request plus the three columns added by `amend_tmp_table_sql`
(`delete_history_id`, `delete_latest_id`, `update_latest BINARY(1) DEFAULT
0`).  The unused load-table columns the scratch table inherits
(`value_updated_timestamp`, `lag`, `is_latest_issue`, all loaded as
constants and never read) are elided. -/
structure TmpRow where
  req : DeletionRow
  delete_history_id : Option Nat
  delete_latest_id : Option Nat
  update_latest : Bool
deriving DecidableEq, Repr

/-- A freshly staged scratch row (added columns at their defaults). -/
def TmpRow.ofReq (d : DeletionRow) : TmpRow := ⟨d, none, none, false⟩

/-- `split_list(lst, n)`: the slices `lst[i:i+n]` for `i in range(0, len, n)`. -/
def split_list {α : Type} (lst : List α) (n : Nat) : List (List α) :=
  (List.range (ceilDiv lst.length n)).map (fun i => (lst.drop (i * n)).take n)

/-- First row of a table matching a full key (tables keep at most one). -/
def findByFullKey (t : List Row) (k : NatKey × Int) : Option Row :=
  t.find? (fun h => decide (h.fullKey = k))

/-- `add_history_id_sql`: resolve `delete_history_id` by joining scratch rows
to the history view on the full composite key; unmatched rows keep NULL. -/
def add_history_id (db : DB) (tmp : List TmpRow) : List TmpRow :=
  tmp.map (fun d =>
    match findByFullKey db.signal_history d.req.fullKey with
    | some h => { d with delete_history_id := some h.signal_data_id }
    | none => d)

/-- `mark_for_update_latest_sql`: join scratch rows to the latest view on the
full composite key; a match records the latest row id and sets
`update_latest = 1`. -/
def mark_for_update_latest (db : DB) (tmp : List TmpRow) : List TmpRow :=
  tmp.map (fun d =>
    match findByFullKey db.signal_latest d.req.fullKey with
    | some l => { d with update_latest := true, delete_latest_id := some l.signal_data_id }
    | none => d)

/-- `delete_history_sql`: delete every history row whose `signal_data_id` is
some scratch row's `delete_history_id`; also returns `cursor.rowcount`. -/
def delete_history (db : DB) (tmp : List TmpRow) : DB × Nat :=
  let hit := fun (h : Row) =>
    tmp.any (fun d => decide (d.delete_history_id = some h.signal_data_id))
  ({ db with signal_history := db.signal_history.filter (fun h => !(hit h)) },
   (db.signal_history.filter hit).length)

/-- `delete_latest_sql`: delete every latest row whose `signal_data_id` is
some scratch row's `delete_latest_id`. -/
def delete_latest (db : DB) (tmp : List TmpRow) : DB :=
  { db with signal_latest := db.signal_latest.filter (fun l =>
      !(tmp.any (fun d => decide (d.delete_latest_id = some l.signal_data_id)))) }

/-- First-occurrence deduplication, as produced by grouping. -/
def dedupFirst {κ : Type} [DecidableEq κ] (l : List κ) : List κ :=
  l.foldl (fun acc k => if k ∈ acc then acc else acc ++ [k]) []

/-- The row `update_latest_sql` inserts for one GROUP BY group (the history
rows sharing one natural key): `MAX(h.issue)` together with the
non-aggregated columns `h.signal_data_id, h.value, ...`.  The statement runs
without ONLY_FULL_GROUP_BY, so MySQL/MariaDB resolves the non-aggregated
columns from an arbitrary row of the group; we model the deterministic
choice "first row of the group in table-scan order". -/
def groupRow (g0 : Row) (rest : List Row) : Row :=
  { g0 with issue := rest.foldl (fun m h => max m h.issue) g0.issue }

/-- The row recomputed for one natural key from the (post-deletion) history
rows sharing it: `none` when the key has no remaining history rows. -/
def recomputeRow (hist : List Row) (k : NatKey) : Option Row :=
  match hist.filter (fun h => decide (h.natKey = k)) with
  | [] => none
  | g0 :: rest => some (groupRow g0 rest)

/-- `update_latest_sql`: for every distinct natural key of a scratch row with
`update_latest = 1` that still has history rows, insert the group row
(max issue + arbitrary-row columns) into the latest table. -/
def update_latest (db : DB) (tmp : List TmpRow) : DB :=
  let keys := dedupFirst ((tmp.filter (fun d => d.update_latest)).map (fun d => d.req.natKey))
  { db with signal_latest := db.signal_latest ++
      keys.filterMap (recomputeRow db.signal_history) }

/-- The scratch-table contents produced by the load phase of `delete_batch`
for a well-formed argument (`LOAD DATA INFILE` for a path, chunked
`executemany` for a list), or `none` for any other argument type, which the
source rejects with "Bad deletions argument: need a filename or a list of
tuples". -/
def parseDeletions : CcDeletions → Option (List DeletionRow)
  | .csvFile _ parsed => some (parsed.map CsvDeletionRow.toDeletionRow)
  | .tupleList rows => some ((split_list rows 100000).flatten)
  | .otherType _ => none

/-- The success path of `delete_batch` (statement sequence of the `try`
block): stage the requests into the scratch relation, resolve
`delete_history_id` and `delete_latest_id`, delete the resolved history and
latest rows, recompute latest rows for the marked natural keys, and return
the history `rowcount`.  The transactional behaviour (commit / failure /
scratch drop) is modelled separately by `delete_batch_tx`. -/
def delete_batch (db : DB) (arg : CcDeletions) : Except String (DB × Option Nat) :=
  match parseDeletions arg with
  | none => .error "Bad deletions argument: need a filename or a list of tuples"
  | some reqs =>
    let tmp := mark_for_update_latest db (add_history_id db (reqs.map TmpRow.ofReq))
    let db1 := (delete_history db tmp).1
    let total := (delete_history db tmp).2
    let db2 := delete_latest db1 tmp
    let db3 := update_latest db2 tmp
    .ok (db3, some total)

/-! ### Metadata Aggregator (`compute_covidcast_meta`) -/

/-- One record produced by the grouped-aggregate query `inner_sql`, in its
column order (`source AS data_source, signal, time_type, geo_type, min_time,
max_time, num_locations, min_value, max_value, mean_value, stdev_value,
last_update, max_issue, min_lag, max_lag`).  Aggregates over the nullable
float column `value` are modelled as `Option Int` (MIN/MAX/AVG/STD return
NULL when every value is NULL); the aggregation itself happens inside SQL
and is treated as opaque data here — the claims concern collection and
sorting, not float arithmetic. -/
structure MetaRow where
  data_source : String
  signal : String
  time_type : String
  geo_type : String
  min_time : Int
  max_time : Int
  num_locations : Int
  min_value : Option Int
  max_value : Option Int
  mean_value : Option Int
  stdev_value : Option Int
  last_update : Int
  max_issue : Int
  min_lag : Int
  max_lag : Int
deriving DecidableEq, Repr

/-- A Python value stored in one of the result dictionaries: the string
columns, the integer columns, and the nullable columns. -/
inductive FieldVal where
  | s (v : String)
  | i (v : Int)
  | oi (v : Option Int)
deriving DecidableEq, Repr

/-- `list(x.items())` for one result dictionary: the (column name, value)
pairs in the column order of `inner_sql` (= dict insertion order, since the
worker builds the dict with `dict(zip(w_cursor.column_names, x))`). -/
def MetaRow.items (x : MetaRow) : List (String × FieldVal) :=
  [("data_source", .s x.data_source), ("signal", .s x.signal),
   ("time_type", .s x.time_type), ("geo_type", .s x.geo_type),
   ("min_time", .i x.min_time), ("max_time", .i x.max_time),
   ("num_locations", .i x.num_locations), ("min_value", .oi x.min_value),
   ("max_value", .oi x.max_value), ("mean_value", .oi x.mean_value),
   ("stdev_value", .oi x.stdev_value), ("last_update", .i x.last_update),
   ("max_issue", .i x.max_issue), ("min_lag", .i x.min_lag),
   ("max_lag", .i x.max_lag)]

/-- `sorting_fields = "data_source signal time_type geo_type".split()`. -/
def sorting_fields : List String := ["data_source", "signal", "time_type", "geo_type"]

/-- `x[field]` on a result dictionary (every sorting field is present, so
the default of the total model is never reached). -/
def MetaRow.getField (x : MetaRow) (f : String) : FieldVal :=
  ((x.items.find? (fun p => decide (p.1 = f))).map Prod.snd).getD (.s "")

/-- `sortable_fields_fn`: the (field, x[field]) pairs for the sorting
fields. -/
def sortable_fields_fn (x : MetaRow) : List (String × FieldVal) :=
  sorting_fields.map (fun f => (f, x.getField f))

/-- `prepended_sortables_fn`: sortable prefix followed by all items. -/
def prepended_sortables_fn (x : MetaRow) : List (String × FieldVal) :=
  sortable_fields_fn x ++ x.items

/-- Strict comparison of two dictionary values, as Python compares them
inside tuple comparison.  Python only ever compares values of the same
column (hence the same constructor); the cross-constructor and
None-versus-int cases, on which Python would raise TypeError, are totalised
by an arbitrary fixed order — they are only reachable when two collected
records tie on every preceding column, which cannot happen for records of
distinct aggregation groups. -/
def fvLt : FieldVal → FieldVal → Bool
  | .s a, .s b => decide (a < b)
  | .s _, .i _ => true
  | .s _, .oi _ => true
  | .i _, .s _ => false
  | .i a, .i b => decide (a < b)
  | .i _, .oi _ => true
  | .oi _, .s _ => false
  | .oi _, .i _ => false
  | .oi none, .oi (some _) => true
  | .oi none, .oi none => false
  | .oi (some _), .oi none => false
  | .oi (some a), .oi (some b) => decide (a < b)

/-- Python tuple comparison `(name1, v1) < (name2, v2)`. -/
def pairLt (p q : String × FieldVal) : Bool :=
  decide (p.1 < q.1) || (decide (p.1 = q.1) && fvLt p.2 q.2)

/-- Python list comparison `ps <= qs` (lexicographic; a strict prefix is
smaller). -/
def repLe : List (String × FieldVal) → List (String × FieldVal) → Bool
  | [], _ => true
  | _ :: _, [] => false
  | p :: ps, q :: qs => pairLt p q || (decide (p = q) && repLe ps qs)

/-- The ordering relation `tuple_representation.sort()` sorts by. -/
def RepLe (a b : List (String × FieldVal)) : Prop := repLe a b = true

instance : DecidableRel RepLe := fun a b => decEq (repLe a b) true

/-- `dict(pairs)` membership lookup: the last value bound to a key wins. -/
def dictLookup (pairs : List (String × FieldVal)) (f : String) : Option FieldVal :=
  (pairs.reverse.find? (fun p => decide (p.1 = f))).map Prod.snd

/-- `dict(tuple_list)` converted back to a result record: reconstruct every
column from the last binding of its name.  On the pair lists actually
produced (a prepended-sortables representation) this always succeeds and
returns the original record. -/
def metaRowOfPairs (p : List (String × FieldVal)) : Option MetaRow :=
  match dictLookup p "data_source", dictLookup p "signal",
        dictLookup p "time_type", dictLookup p "geo_type",
        dictLookup p "min_time", dictLookup p "max_time",
        dictLookup p "num_locations", dictLookup p "min_value",
        dictLookup p "max_value", dictLookup p "mean_value",
        dictLookup p "stdev_value", dictLookup p "last_update",
        dictLookup p "max_issue", dictLookup p "min_lag",
        dictLookup p "max_lag" with
  | some (.s ds), some (.s sg), some (.s tt), some (.s gt),
    some (.i mnt), some (.i mxt), some (.i nl), some (.oi mnv),
    some (.oi mxv), some (.oi mean), some (.oi sd), some (.i lu),
    some (.i mxi), some (.i mnl), some (.i mxl) =>
      some ⟨ds, sg, tt, gt, mnt, mxt, nl, mnv, mxv, mean, sd, lu, mxi, mnl, mxl⟩
  | _, _, _, _, _, _, _, _, _, _, _, _, _, _, _ => none

/-- The final sort step of `compute_covidcast_meta`: map each collected
record to its prepended-sortable tuple representation, sort, and map back
through `dict`.  Python uses a stable comparison sort over `<`; since the
modelled order is total and antisymmetric, every correct sort produces the
same list, so the sort is modelled with `List.insertionSort`. -/
def sortMetaStep (meta : List MetaRow) : List MetaRow :=
  let tuple_representation := meta.map prepended_sortables_fn
  (tuple_representation.insertionSort RepLe).filterMap metaRowOfPairs

/-- The records accumulated into the shared `meta` list by the worker pool:
each worker pops one (source, signal) pair at a time and appends that whole
block of query results under the mutex, so the collected list is the
concatenation of the per-pair result blocks in the (nondeterministic)
completion order of the pairs.  `results` abstracts the grouped-aggregate
query against the Latest projection ("the same underlying data" fixes it). -/
def collectMeta (order : List (String × String))
    (results : String × String → List MetaRow) : List MetaRow :=
  order.flatMap results

/-- `compute_covidcast_meta`, parameterised by the pair completion order of
the worker pool and by the per-pair query results. -/
def compute_covidcast_meta (order : List (String × String))
    (results : String × String → List MetaRow) : List MetaRow :=
  sortMetaStep (collectMeta order results)

/-- The (data_source, signal, time_type, geo_type) sort key. -/
def sortKeyTuple (x : MetaRow) : String × String × String × String :=
  (x.data_source, x.signal, x.time_type, x.geo_type)

/-- Lexicographic order on the four-field sort key. -/
def key4Le (a b : MetaRow) : Prop :=
  a.data_source < b.data_source ∨ (a.data_source = b.data_source ∧
    (a.signal < b.signal ∨ (a.signal = b.signal ∧
      (a.time_type < b.time_type ∨ (a.time_type = b.time_type ∧
        a.geo_type ≤ b.geo_type)))))

/-! ### Metadata Cache -/

/-- One row of `covidcast_meta_cache`: a timestamp and the serialized
snapshot.  `json.dumps`/`json.loads` round-trip the record list exactly, so
the `epidata` blob is modelled by its parsed content. -/
structure MetaCacheRow where
  timestamp : Int
  epidata : List MetaRow
deriving DecidableEq, Repr

/-- `update_covidcast_meta_cache`: an UPDATE with no WHERE clause — every
row of the cache table is overwritten in place with the current timestamp
and the new serialized snapshot. -/
def update_covidcast_meta_cache (cache : List MetaCacheRow) (now : Int)
    (metadata : List MetaRow) : List MetaCacheRow :=
  cache.map (fun r => { r with timestamp := now, epidata := metadata })

/-- `ORDER BY timestamp DESC LIMIT 1`: the first row attaining the maximum
timestamp (deterministic tie-break by table order). -/
def bestTimestampRow (cache : List MetaCacheRow) : Option MetaCacheRow :=
  cache.foldl (fun acc r =>
    match acc with
    | none => some r
    | some m => if m.timestamp < r.timestamp then some r else some m) none

/-- The `cache_hash` dictionary assignment
`cache_hash[(entry[...], ...)] = entry`: replace the binding if the key is
already present, otherwise append it. -/
def cacheHashInsert (h : List ((String × String × String × String) × MetaRow))
    (e : MetaRow) : List ((String × String × String × String) × MetaRow) :=
  if h.any (fun p => decide (p.1 = sortKeyTuple e)) then
    h.map (fun p => if p.1 = sortKeyTuple e then (p.1, e) else p)
  else h ++ [(sortKeyTuple e, e)]

/-- The keyed lookup structure built from one deserialized snapshot. -/
def cacheHash (entries : List MetaRow) :
    List ((String × String × String × String) × MetaRow) :=
  entries.foldl cacheHashInsert []

/-- `retrieve_covidcast_meta_cache`: deserialize the snapshot with the
maximum timestamp and key it by (data_source, signal, time_type, geo_type).
On an empty cache table `fetchone()` yields None and the source raises;
modelled as `none`. -/
def retrieve_covidcast_meta_cache (cache : List MetaCacheRow) :
    Option (List ((String × String × String × String) × MetaRow)) :=
  (bestTimestampRow cache).map (fun r => cacheHash r.epidata)

/-! ### Transactional execution of `delete_batch`

The source targets MySQL/MariaDB through `mysql.connector` with autocommit
off: `cursor.execute` applies a DML statement to the connection's open
transaction (pending state), `connection.commit()` publishes the pending
state, and a DDL statement (`CREATE OR REPLACE TABLE`, `ALTER TABLE`,
`DROP TABLE`) causes an implicit commit of the transaction it executes in.
`delete_batch` runs its statements in one `try` block, commits explicitly on
success, and drops the scratch table in a `finally` block. -/

/-- Full store state visible to one statement: the database plus the scratch
relation `tmp_delete_table` (`none` = the table does not exist). -/
structure Store where
  db : DB
  tmp : Option (List TmpRow)
deriving DecidableEq, Repr

/-- A connection: last committed store state and the pending state of the
open transaction. -/
structure Conn where
  committed : Store
  pending : Store
deriving DecidableEq, Repr

/-- Execute one statement on a connection.  A DML statement only changes the
pending state; a DDL statement also implicitly commits. -/
def execStmt (c : Conn) (isDdl : Bool) (f : Store → Store) : Conn :=
  let p := f c.pending
  if isDdl then { committed := p, pending := p } else { c with pending := p }

/-- `CREATE OR REPLACE TABLE tmp_delete_table LIKE signal_load` (DDL). -/
def createTmpTable (s : Store) : Store := { s with tmp := some [] }

/-- `ALTER TABLE tmp_delete_table ADD COLUMN ...` (DDL; the added columns
are already part of `TmpRow`, so the state is unchanged). -/
def amendTmpTable (s : Store) : Store := s

/-- Stage a chunk of deletion requests into the scratch relation
(`executemany(load_tmp_table_insert_sql, ...)` or the INFILE load). -/
def stageTmpRows (reqs : List DeletionRow) (s : Store) : Store :=
  { s with tmp := some ((s.tmp.getD []) ++ reqs.map TmpRow.ofReq) }

/-- `add_history_id_sql` as a statement on the store. -/
def stmtAddHistoryId (s : Store) : Store :=
  { s with tmp := some (add_history_id s.db (s.tmp.getD [])) }

/-- `mark_for_update_latest_sql` as a statement on the store. -/
def stmtMarkForUpdateLatest (s : Store) : Store :=
  { s with tmp := some (mark_for_update_latest s.db (s.tmp.getD [])) }

/-- `delete_history_sql` as a statement on the store. -/
def stmtDeleteHistory (s : Store) : Store :=
  { s with db := (delete_history s.db (s.tmp.getD [])).1 }

/-- `delete_latest_sql` as a statement on the store. -/
def stmtDeleteLatest (s : Store) : Store :=
  { s with db := delete_latest s.db (s.tmp.getD []) }

/-- `update_latest_sql` as a statement on the store. -/
def stmtUpdateLatest (s : Store) : Store :=
  { s with db := update_latest s.db (s.tmp.getD []) }

/-- `DROP TABLE tmp_delete_table` (DDL). -/
def dropTmpTable (s : Store) : Store := { s with tmp := none }

/-- One step of the `try` block of `delete_batch`: a statement execution
(DDL or DML), the explicit `raise` of the bad-argument branch, or the
explicit `connection.commit()`. -/
inductive TryStep where
  | stmt (isDdl : Bool) (f : Store → Store)
  | raiseErr
  | commitStep

/-- The steps of the `try` block of `delete_batch` for a given argument.
A string argument loads the file in one INFILE statement; a list argument
loads it in `split_list(<rows>, 100000)` chunks, one `executemany` per
chunk; any other argument raises after the scratch table has been created
and amended. -/
def trySteps (arg : CcDeletions) : List TryStep :=
  [.stmt true createTmpTable, .stmt true amendTmpTable]
  ++ (match arg with
      | .csvFile _ parsed =>
          [.stmt false (stageTmpRows (parsed.map CsvDeletionRow.toDeletionRow))]
      | .tupleList rows =>
          (split_list rows 100000).map (fun chunk => .stmt false (stageTmpRows chunk))
      | .otherType _ => [.raiseErr])
  ++ [.stmt false stmtAddHistoryId, .stmt false stmtMarkForUpdateLatest,
      .stmt false stmtDeleteHistory, .stmt false stmtDeleteLatest,
      .stmt false stmtUpdateLatest, .commitStep]

/-- Run the steps of a `try` block.  `oracle i = true` makes the i-th step
raise (a statement failing in the store) before taking effect; `raiseErr`
raises unconditionally.  Returns the connection and whether the block
completed without an exception. -/
def runTry (oracle : Nat → Bool) : Conn → Nat → List TryStep → Conn × Bool
  | c, _, [] => (c, true)
  | c, i, step :: rest =>
    match step with
    | .raiseErr => (c, false)
    | .commitStep => runTry oracle { c with committed := c.pending } (i + 1) rest
    | .stmt isDdl f =>
        if oracle i then (c, false)
        else runTry oracle (execStmt c isDdl f) (i + 1) rest

/-- `delete_batch` with its transactional behaviour: run the `try` block,
then always execute the `finally` block, which drops the scratch relation —
a DDL statement, hence an implicit commit.  Returns the final connection
and whether the call returned normally. -/
def delete_batch_tx (c : Conn) (arg : CcDeletions) (oracle : Nat → Bool) :
    Conn × Bool :=
  let (c1, ok) := runTry oracle c 0 (trySteps arg)
  (execStmt c1 true dropTmpTable, ok)

/-! ### Sample concrete data used by witnesses and counterexamples -/

/-- A natural key used by concrete scenarios. -/
def kX : NatKey := ⟨"src", "sig", "day", "county", "01001", 20200101⟩

/-- An observation draft for `kX` with a given issue and value. -/
def draftFor (issue : Int) (value : Option Int) : CovidcastRow :=
  ⟨"src", "sig", "day", "county", 20200101, "01001", value, none, none, issue, 0, 0, 0, 0⟩

/-- A sample observation draft. -/
def sampleDraft : CovidcastRow := draftFor 20200102 (some 3)

/-! ### Basic facts about the merge coordinator -/

/-- `run_dbjobs` always ends with `signal_load_delete_processed`, leaving the
staging table empty. -/
lemma run_dbjobs_load (db : DB) : (run_dbjobs db).signal_load = [] := rfl

/-- On an empty staging table every statement of `run_dbjobs` is a no-op for
history and latest. -/
lemma run_dbjobs_of_load_empty (db : DB) (h : db.signal_load = []) :
    (run_dbjobs db).signal_history = db.signal_history ∧
    (run_dbjobs db).signal_latest = db.signal_latest := by
  simp [run_dbjobs, signal_dim_add_new_load, geo_dim_add_new_load, h]

/-- C5 (Merge Coordinator idempotence): immediately after a merge of a
staged batch the staging area is empty, and running `run_dbjobs` again
leaves the History Store and the Latest projection unchanged. -/
theorem run_dbjobs_idempotent (db : DB) (now : Int) (rows : List CovidcastRow) :
    (run_dbjobs (mergeStagedBatch db now rows)).signal_history
        = (mergeStagedBatch db now rows).signal_history ∧
    (run_dbjobs (mergeStagedBatch db now rows)).signal_latest
        = (mergeStagedBatch db now rows).signal_latest :=
  run_dbjobs_of_load_empty (mergeStagedBatch db now rows)
    (run_dbjobs_load (fix_is_latest_issue (stageRows now db rows)))

/-- C4 (Staging Loader precondition): a call with a non-empty staging area
fails fatally with the database untouched (the error carries the state at
the raise, which is the input state — nothing has been staged or merged);
a call with an empty staging area passes the precondition and returns
normally. -/
theorem insert_or_update_batch_precondition (db : DB) (now : Int)
    (cc_rows : List CovidcastRow) (batch_size : Nat) :
    (db.signal_load ≠ [] →
       insert_or_update_batch db now cc_rows batch_size =
         .error ("Non-zero count in the load table!!!", db)) ∧
    (db.signal_load = [] →
       ∃ out, insert_or_update_batch db now cc_rows batch_size = .ok out) := by
  constructor
  · intro h
    have hlen : db.signal_load.length ≠ 0 := by
      simpa [List.length_eq_zero] using h
    simp [insert_or_update_batch, hlen]
  · intro h
    have hlen : ¬ db.signal_load.length ≠ 0 := by simp [h]
    exact ⟨_, by unfold insert_or_update_batch; rw [if_neg hlen]⟩

/-- Witness for C4 at concrete inputs: a database with one staged row is
rejected with the state unchanged, and the empty database passes the
precondition. -/
theorem insert_or_update_batch_precondition_witness :
    (insert_or_update_batch
        { emptyDB with signal_load := [stageRow 0 0 sampleDraft] } 0 [] 5 =
      .error ("Non-zero count in the load table!!!",
        { emptyDB with signal_load := [stageRow 0 0 sampleDraft] })) ∧
    (∃ out, insert_or_update_batch emptyDB 0 [] 5 = .ok out) :=
  ⟨(insert_or_update_batch_precondition _ 0 [] 5).1 (by decide),
   (insert_or_update_batch_precondition emptyDB 0 [] 5).2 rfl⟩

/-! ### Batch partitioning (C6) -/

/-- For a positive batch size the consecutive slices
`cc_rows[i*B : min(N, i*B+B)]`, `i < ceil(N/B)`, partition the input. -/
lemma flatten_batchSlices (B : Nat) (hB : 0 < B) :
    ∀ (n : Nat) (rows : List CovidcastRow), rows.length = n →
      ((List.range (ceilDiv rows.length B)).map (batchSlice rows B)).flatten = rows := by
  intro n
  induction n using Nat.strong_induction_on with
  | _ n ih =>
    intro rows hlen
    have hz : ceilDiv 0 B = 0 := by
      unfold ceilDiv
      simpa using Nat.div_eq_of_lt (by omega)
    rcases Nat.eq_zero_or_pos n with h0 | hpos
    · subst h0
      have : rows = [] := List.length_eq_zero.mp hlen
      subst this
      simp only [List.length_nil, hz, List.range_zero, List.map_nil, List.flatten_nil]
    · have hone : ceilDiv rows.length B = (ceilDiv (rows.length - B) B) + 1 := by
        rcases Nat.le_total rows.length B with hle | hle
        · have h1 : ceilDiv rows.length B = 1 := by
            have : rows.length + B - 1 < 2 * B := by omega
            have hlt : (rows.length + B - 1) / B < 2 :=
              Nat.div_lt_of_lt_mul (by omega)
            have hge : 1 ≤ (rows.length + B - 1) / B :=
              (Nat.le_div_iff_mul_le hB).mpr (by omega)
            unfold ceilDiv
            omega
          have h0 : rows.length - B = 0 := by omega
          rw [h1, h0, hz]
        · unfold ceilDiv
          have : rows.length + B - 1 = (rows.length - B + B - 1) + B := by omega
          rw [this, Nat.add_div_right _ hB]
      rw [hone, List.range_succ_eq_map]
      have hdrop : ∀ i : Nat, batchSlice rows B (i + 1) = batchSlice (rows.drop B) B i := by
        intro i
        unfold batchSlice
        rw [List.drop_drop, show (i + 1) * B = B + i * B by ring]
      have htail := ih (n - B) (by omega) (rows.drop B) (by simp [hlen])
      have hlen' : (rows.drop B).length = rows.length - B := by simp
      rw [hlen'] at htail
      simp only [List.map_cons, List.map_map, List.flatten_cons]
      have hmapeq : (List.range (ceilDiv (rows.length - B) B)).map
          (batchSlice rows B ∘ (fun i => i + 1)) =
          (List.range (ceilDiv (rows.length - B) B)).map (batchSlice (rows.drop B) B) := by
        refine List.map_congr_left ?_
        intro i _
        simp [Function.comp, hdrop i]
      rw [show (fun i => i + 1) = (· + 1 : Nat → Nat) from rfl] at hmapeq
      rw [hmapeq, htail]
      simp [batchSlice]

/-- The batch loop accumulates the slice lengths into the total and counts
one merge invocation per batch, whatever the database does. -/
lemma loadBatch_foldl_counts (now : Int) (cc_rows : List CovidcastRow) (bs : Nat) :
    ∀ (idxs : List Nat) (acc : DB × Nat × Nat),
      (idxs.foldl (loadBatchStep now cc_rows bs) acc).2.1 =
        acc.2.1 + (idxs.map (fun i => (batchSlice cc_rows bs i).length)).sum ∧
      (idxs.foldl (loadBatchStep now cc_rows bs) acc).2.2 = acc.2.2 + idxs.length := by
  intro idxs
  induction idxs with
  | nil => intro acc; simp
  | cons i rest ih =>
    intro acc
    have h := ih (loadBatchStep now cc_rows bs acc i)
    simp only [List.foldl_cons, List.map_cons, List.sum_cons, List.length_cons]
    refine ⟨?_, ?_⟩
    · rw [h.1]; simp [loadBatchStep]; ring
    · rw [h.2]; simp [loadBatchStep]; ring

/-- C6 (batch partitioning and returned count): starting from an empty
staging area with the connector reporting affected-row counts, a call with
batch size `B > 0` splits the `N` input rows into the `ceil(N/B)`
consecutive slices (which partition the input), invokes the merge
(`run_dbjobs`) exactly once per batch, and returns total `N`. -/
theorem insert_or_update_batch_partition_count (db : DB) (now : Int)
    (cc_rows : List CovidcastRow) (B : Nat) (hB : 0 < B)
    (hload : db.signal_load = []) :
    ((List.range (ceilDiv cc_rows.length B)).map (batchSlice cc_rows B)).flatten = cc_rows ∧
    ∃ db', insert_or_update_batch db now cc_rows B =
      .ok (db', cc_rows.length, ceilDiv cc_rows.length B) := by
  have hflat := flatten_batchSlices B hB cc_rows.length cc_rows rfl
  refine ⟨hflat, ?_⟩
  have hlen : ¬ db.signal_load.length ≠ 0 := by simp [hload]
  have hBne : ¬ B = 0 := by omega
  have hcounts := loadBatch_foldl_counts now cc_rows B
      (List.range (ceilDiv cc_rows.length B)) (db, 0, 0)
  have hsum : ((List.range (ceilDiv cc_rows.length B)).map
      (fun i => (batchSlice cc_rows B i).length)).sum = cc_rows.length := by
    have := congrArg List.length hflat
    simpa [List.length_flatten, Function.comp] using this
  refine ⟨(List.foldl (loadBatchStep now cc_rows B)
      (db, 0, 0) (List.range (ceilDiv cc_rows.length B))).1, ?_⟩
  unfold insert_or_update_batch
  rw [if_neg hlen]
  simp only [if_neg hBne]
  congr 1
  have h1 := hcounts.1
  have h2 := hcounts.2
  simp only [Nat.zero_add] at h1 h2
  rw [Prod.ext_iff]
  refine ⟨rfl, ?_⟩
  rw [Prod.ext_iff]
  exact ⟨by simpa [hsum] using h1, by simpa using h2⟩

/-- Witness for C6: loading 2,500,000 rows with batch size 1,000,000
produces exactly 3 merge invocations and returns total 2,500,000. -/
theorem insert_or_update_batch_partition_count_witness :
    ∃ db', insert_or_update_batch emptyDB 0 (List.replicate 2500000 sampleDraft) 1000000 =
      .ok (db', 2500000, 3) := by
  have h := (insert_or_update_batch_partition_count emptyDB 0
      (List.replicate 2500000 sampleDraft) 1000000 (Nat.succ_pos _) rfl).2
  have hlen : (List.replicate 2500000 sampleDraft).length = 2500000 :=
    List.length_replicate 2500000 sampleDraft
  rw [hlen] at h
  have hceil : ceilDiv 2500000 1000000 = 3 := by rfl
  rwa [hceil] at h

/-! ### The latest-projection invariant (C1) -/

/-- The history rows for one natural key. -/
def keyHistory (db : DB) (k : NatKey) : List Row :=
  db.signal_history.filter (fun h => decide (h.natKey = k))

/-- The latest rows for one natural key. -/
def keyLatest (db : DB) (k : NatKey) : List Row :=
  db.signal_latest.filter (fun l => decide (l.natKey = k))

/-- Maximum of a list of integers (`none` for the empty list). -/
def intMax? : List Int → Option Int
  | [] => none
  | x :: xs => some (match intMax? xs with | none => x | some m => max x m)

/-- The latest-projection invariant: every natural key with at least one
history row has exactly one latest row, whose issue is the maximum issue
among that key's history rows; keys without history rows have no latest
row. -/
def LatestInv (db : DB) : Prop :=
  ∀ k : NatKey,
    (keyHistory db k = [] → keyLatest db k = []) ∧
    (keyHistory db k ≠ [] → ∃ l, keyLatest db k = [l] ∧
       some l.issue = intMax? ((keyHistory db k).map Row.issue))

/-- States reachable by the public operations: merge-coordinator runs on
staged batches and successful deletion-engine calls. -/
inductive Reachable : DB → Prop where
  | init : Reachable emptyDB
  | merge (db : DB) (now : Int) (rows : List CovidcastRow) :
      Reachable db → Reachable (mergeStagedBatch db now rows)
  | deleteStep (db : DB) (arg : CcDeletions) (db' : DB) (total : Option Nat) :
      Reachable db → delete_batch db arg = .ok (db', total) → Reachable db'

/-- States reachable when every staged batch contains at most one row per
natural key (the amended merge precondition). -/
inductive ReachableND : DB → Prop where
  | init : ReachableND emptyDB
  | merge (db : DB) (now : Int) (rows : List CovidcastRow)
      (hnd : (rows.map CovidcastRow.natKey).Nodup) :
      ReachableND db → ReachableND (mergeStagedBatch db now rows)
  | deleteStep (db : DB) (arg : CcDeletions) (db' : DB) (total : Option Nat) :
      ReachableND db → delete_batch db arg = .ok (db', total) → ReachableND db'

/-- Merging a batch that stages issue 20200102 before issue 20200101 for the
same natural key. -/
def dbBadOrder : DB :=
  mergeStagedBatch emptyDB 0 [draftFor 20200102 (some 2), draftFor 20200101 (some 1)]

/-- Counterexample to C1 as stated: the state reached by merging one staged
batch that contains two issues of the same natural key, newest first,
violates the invariant — both versions land in history, but the latest
upsert processes the staged rows in order and leaves the older issue
(20200101) in the latest table, while the maximum history issue is
20200102. -/
theorem latest_invariant_counterexample :
    Reachable dbBadOrder ∧ ¬ LatestInv dbBadOrder := by
  constructor
  · exact Reachable.merge emptyDB 0 _ Reachable.init
  · intro h
    obtain ⟨l, hl, hiss⟩ := (h kX).2 (by decide)
    have hval : keyLatest dbBadOrder kX =
        [(stageRow 0 1 (draftFor 20200101 (some 1))).row] := by decide
    rw [hval] at hl
    have hl' : l = (stageRow 0 1 (draftFor 20200101 (some 1))).row :=
      (List.cons.injEq _ _ _ _).mp hl.symm |>.1
    subst hl'
    have hmax : intMax? ((keyHistory dbBadOrder kX).map Row.issue) = some 20200102 := by
      decide
    rw [hmax] at hiss
    exact absurd hiss (by decide)

/-! ### Deletion-engine recompute (C2) and malformed input (C7) -/

/-- A history/latest row for `kX` with the given id, issue and value. -/
def histRow (id : Nat) (issue : Int) (v : Option Int) : Row :=
  ⟨id, "src", "sig", "day", "county", "01001", 20200101, issue, 0, v, none, none, 0, 0, 0, 0⟩

/-- A store with three versions of `kX` (issues 1, 2, 3 with values 10, 20,
30) and the latest projection pointing at issue 3. -/
def dbC2 : DB :=
  { signal_load := []
    signal_history := [histRow 0 1 (some 10), histRow 1 2 (some 20), histRow 2 3 (some 30)]
    signal_latest := [histRow 2 3 (some 30)]
    signal_dim := [("src", "sig")]
    geo_dim := [("county", "01001")]
    next_data_id := 3 }

/-- A deletion request for `kX` at the given issue. -/
def delReqFor (issue : Int) : DeletionRow :=
  ⟨"01001", none, none, none, issue, 20200101, "county", "sig", "src", "day"⟩

/-- The row `update_latest_sql` actually reinserts in the `dbC2` scenario:
`MAX(h.issue) = 2` combined with the non-aggregated columns of the first
group row (issue 1, value 10, `signal_data_id` 0). -/
def mixedLatestRow : Row := { histRow 0 1 (some 10) with issue := 2 }

/-- C2 (code bug): deleting the latest version (issue 3) of `kX` from
`dbC2` reinserts into the latest table a row whose `issue` is the maximum
remaining issue (2) but whose other columns (value 10, id 0) come from the
first-scanned group row with issue 1 — not from the remaining history row
with the maximum issue (issue 2, value 20), which the claim (and the
source's own comment, "re-write that record with its next-latest issue")
requires.  The reinserted row differs from that max-issue history row. -/
theorem delete_batch_group_by_mixes_fields :
    delete_batch dbC2 (CcDeletions.tupleList [delReqFor 3]) =
      .ok ({ dbC2 with
               signal_history := [histRow 0 1 (some 10), histRow 1 2 (some 20)]
               signal_latest := [mixedLatestRow] }, some 1) ∧
    mixedLatestRow.issue = 2 ∧
    mixedLatestRow.value = some 10 ∧
    histRow 1 2 (some 20) ∈ ({ dbC2 with
        signal_history := [histRow 0 1 (some 10), histRow 1 2 (some 20)]
        signal_latest := [mixedLatestRow] } : DB).signal_history ∧
    intMax? ((keyHistory { dbC2 with
        signal_history := [histRow 0 1 (some 10), histRow 1 2 (some 20)]
        signal_latest := [mixedLatestRow] } kX).map Row.issue) = some 2 ∧
    (histRow 1 2 (some 20)).issue = 2 ∧
    mixedLatestRow ≠ histRow 1 2 (some 20) := by
  refine ⟨by rfl, by decide, by decide, by decide, by decide, by decide, by decide⟩

/-- C7 (malformed deletion input): calling `delete_batch` with an argument
that is neither a string nor a list raises the argument-type error, and on a
clean connection the transactional run leaves the History Store and the
Latest projection unchanged — whichever statements the oracle makes fail —
because only the scratch relation is touched before the raise. -/
theorem delete_batch_malformed_input (c : Conn) (descr : String)
    (oracle : Nat → Bool) (hclean : c.pending = c.committed) :
    delete_batch c.committed.db (CcDeletions.otherType descr) =
      .error "Bad deletions argument: need a filename or a list of tuples" ∧
    (delete_batch_tx c (CcDeletions.otherType descr) oracle).2 = false ∧
    (delete_batch_tx c (CcDeletions.otherType descr) oracle).1.committed.db =
      c.committed.db ∧
    (delete_batch_tx c (CcDeletions.otherType descr) oracle).1.pending.db =
      c.committed.db := by
  refine ⟨rfl, ?_⟩
  have hsteps : trySteps (CcDeletions.otherType descr) =
      [.stmt true createTmpTable, .stmt true amendTmpTable, .raiseErr,
       .stmt false stmtAddHistoryId, .stmt false stmtMarkForUpdateLatest,
       .stmt false stmtDeleteHistory, .stmt false stmtDeleteLatest,
       .stmt false stmtUpdateLatest, .commitStep] := rfl
  unfold delete_batch_tx
  rw [hsteps]
  by_cases h0 : oracle 0 <;> by_cases h1 : oracle 1 <;>
    simp [runTry, h0, h1, execStmt, createTmpTable, amendTmpTable, dropTmpTable, hclean]

/-- Witness for C7 at a concrete clean connection. -/
theorem delete_batch_malformed_input_witness :
    delete_batch dbC2 (CcDeletions.otherType "dict") =
      .error "Bad deletions argument: need a filename or a list of tuples" ∧
    (delete_batch_tx ⟨⟨dbC2, none⟩, ⟨dbC2, none⟩⟩ (CcDeletions.otherType "dict")
        (fun _ => false)).2 = false ∧
    (delete_batch_tx ⟨⟨dbC2, none⟩, ⟨dbC2, none⟩⟩ (CcDeletions.otherType "dict")
        (fun _ => false)).1.committed.db = dbC2 ∧
    (delete_batch_tx ⟨⟨dbC2, none⟩, ⟨dbC2, none⟩⟩ (CcDeletions.otherType "dict")
        (fun _ => false)).1.pending.db = dbC2 :=
  delete_batch_malformed_input ⟨⟨dbC2, none⟩, ⟨dbC2, none⟩⟩ "dict" (fun _ => false) rfl

/-! ### Metadata cache (C8) -/

/-- A sample aggregated metadata record. -/
def mRow (src sig : String) (mn : Int) : MetaRow :=
  ⟨src, sig, "day", "county", mn, mn + 10, 4, some 1, some 9, some 5, some 2, 77, 20200111, 0, 3⟩

/-- Counterexample to C8 as stated: `update_covidcast_meta_cache` issues an
UPDATE with no WHERE clause, so the previously persisted cache entry
(timestamp 5, old snapshot) does not remain unchanged — it is overwritten
in place by the new snapshot. -/
theorem meta_cache_overwrite_counterexample :
    update_covidcast_meta_cache [⟨5, [mRow "a" "x" 0]⟩] 10 [mRow "b" "y" 1] =
      [⟨10, [mRow "b" "y" 1]⟩] ∧
    (⟨5, [mRow "a" "x" 0]⟩ : MetaCacheRow) ∉
      update_covidcast_meta_cache [⟨5, [mRow "a" "x" 0]⟩] 10 [mRow "b" "y" 1] ∧
    update_covidcast_meta_cache [⟨5, [mRow "a" "x" 0]⟩] 10 [mRow "b" "y" 1] ≠
      [⟨5, [mRow "a" "x" 0]⟩] := by
  refine ⟨by decide, by decide, by decide⟩

/-- `bestTimestampRow` of a non-empty table is a member attaining the
maximum timestamp. -/
lemma bestTimestampRow_spec (cache : List MetaCacheRow) (hne : cache ≠ []) :
    ∃ top, bestTimestampRow cache = some top ∧ top ∈ cache ∧
      ∀ r ∈ cache, r.timestamp ≤ top.timestamp := by
  have main : ∀ (l : List MetaCacheRow) (m : MetaCacheRow),
      ∃ t, l.foldl (fun acc r =>
          match acc with
          | none => some r
          | some m' => if m'.timestamp < r.timestamp then some r else some m') (some m)
        = some t ∧ (t = m ∨ t ∈ l) ∧ m.timestamp ≤ t.timestamp ∧
        ∀ r ∈ l, r.timestamp ≤ t.timestamp := by
    intro l
    induction l with
    | nil => intro m; exact ⟨m, rfl, Or.inl rfl, le_refl _, by simp⟩
    | cons r rest ih =>
      intro m
      by_cases hlt : m.timestamp < r.timestamp
      · obtain ⟨t, h1, h2, h3, h4⟩ := ih r
        refine ⟨t, ?_, ?_, ?_, ?_⟩
        · simpa [hlt] using h1
        · rcases h2 with h | h
          · exact Or.inr (by simp [h])
          · exact Or.inr (by simp [h])
        · exact le_trans (le_of_lt hlt) h3
        · intro x hx
          rcases List.mem_cons.mp hx with h | h
          · subst h; exact h3
          · exact h4 x h
      · obtain ⟨t, h1, h2, h3, h4⟩ := ih m
        refine ⟨t, ?_, ?_, ?_, ?_⟩
        · simpa [hlt] using h1
        · rcases h2 with h | h
          · exact Or.inl h
          · exact Or.inr (by simp [h])
        · exact h3
        · intro x hx
          rcases List.mem_cons.mp hx with h | h
          · subst h; exact le_trans (le_of_not_lt hlt) h3
          · exact h4 x h
  match cache, hne with
  | r :: rest, _ =>
    obtain ⟨t, h1, h2, h3, h4⟩ := main rest r
    refine ⟨t, ?_, ?_, ?_⟩
    · simpa [bestTimestampRow] using h1
    · rcases h2 with h | h
      · exact by simp [h]
      · exact by simp [h]
    · intro x hx
      rcases List.mem_cons.mp hx with h | h
      · subst h; exact h3
      · exact h4 x h

/-- C8 amended: writing a snapshot overwrites every cache row in place with
the current timestamp and the new serialized output (no rows are added or
deleted, but prior snapshot contents are not retained), and retrieval
always returns the maximum-timestamp snapshot, deserialized and keyed by
(data_source, signal, time_type, geo_type); in particular, after a write the
retrieved snapshot is the freshly written one. -/
theorem meta_cache_amended (cache : List MetaCacheRow) (now : Int)
    (md : List MetaRow) (hne : cache ≠ []) :
    (update_covidcast_meta_cache cache now md).length = cache.length ∧
    (∀ r ∈ update_covidcast_meta_cache cache now md,
        r.timestamp = now ∧ r.epidata = md) ∧
    (∃ top, bestTimestampRow cache = some top ∧ top ∈ cache ∧
       (∀ r ∈ cache, r.timestamp ≤ top.timestamp) ∧
       retrieve_covidcast_meta_cache cache = some (cacheHash top.epidata)) ∧
    retrieve_covidcast_meta_cache (update_covidcast_meta_cache cache now md) =
      some (cacheHash md) := by
  refine ⟨by simp [update_covidcast_meta_cache], ?_, ?_, ?_⟩
  · intro r hr
    obtain ⟨r0, _, hr0⟩ := List.mem_map.mp hr
    exact ⟨by rw [← hr0], by rw [← hr0]⟩
  · obtain ⟨top, h1, h2, h3⟩ := bestTimestampRow_spec cache hne
    exact ⟨top, h1, h2, h3, by simp [retrieve_covidcast_meta_cache, h1]⟩
  · have hne' : update_covidcast_meta_cache cache now md ≠ [] := by
      simp [update_covidcast_meta_cache, hne]
    obtain ⟨top, h1, h2, _⟩ := bestTimestampRow_spec _ hne'
    obtain ⟨r0, _, hr0⟩ := List.mem_map.mp h2
    have : top.epidata = md := by rw [← hr0]
    simp [retrieve_covidcast_meta_cache, h1, this]

/-- Witness for C8 amended at a one-row cache. -/
theorem meta_cache_amended_witness :
    ([(⟨5, [mRow "a" "x" 0]⟩ : MetaCacheRow)] ≠ []) ∧
    retrieve_covidcast_meta_cache
        (update_covidcast_meta_cache [⟨5, [mRow "a" "x" 0]⟩] 10 [mRow "b" "y" 1]) =
      some (cacheHash [mRow "b" "y" 1]) :=
  ⟨by decide,
   (meta_cache_amended [⟨5, [mRow "a" "x" 0]⟩] 10 [mRow "b" "y" 1] (by decide)).2.2.2⟩

/-! ### Deletion-engine transactionality (C3) -/

/-- A store with two versions of `kX` (issues 1 and 2) and the latest
projection pointing at issue 2. -/
def dbC3 : DB :=
  { signal_load := []
    signal_history := [histRow 0 1 (some 10), histRow 1 2 (some 20)]
    signal_latest := [histRow 1 2 (some 20)]
    signal_dim := [("src", "sig")]
    geo_dim := [("county", "01001")]
    next_data_id := 2 }

/-- A clean connection over `dbC3`. -/
def connC3 : Conn := ⟨⟨dbC3, none⟩, ⟨dbC3, none⟩⟩

/-- Counterexample to C3 as stated: deleting issue 2 of `kX` with the
`update_latest` statement (step index 7) failing raises an exception, yet
the history deletion and the latest deletion executed before the failure
persist — the scratch-table `DROP` in the `finally` block is DDL and
implicitly commits the open transaction — so the call is not all-or-nothing:
the committed store afterwards has lost issue 2 from history and has no
latest row at all. -/
theorem delete_batch_tx_partial_commit_counterexample :
    ((delete_batch_tx connC3 (CcDeletions.tupleList [delReqFor 2])
        (fun i => decide (i = 7))).2 = false) ∧
    (delete_batch_tx connC3 (CcDeletions.tupleList [delReqFor 2])
        (fun i => decide (i = 7))).1.committed.db.signal_history =
      [histRow 0 1 (some 10)] ∧
    (delete_batch_tx connC3 (CcDeletions.tupleList [delReqFor 2])
        (fun i => decide (i = 7))).1.committed.db.signal_latest = [] ∧
    dbC3.signal_history ≠ [histRow 0 1 (some 10)] ∧
    dbC3.signal_latest ≠ ([] : List Row) ∧
    (delete_batch_tx connC3 (CcDeletions.tupleList [delReqFor 2])
        (fun i => decide (i = 7))).1.committed.tmp = none := by
  refine ⟨by decide, by decide, by decide, by decide, by decide, by decide⟩

/-- One step of a `try` block under an oracle that never fails. -/
def applyStepNF (c : Conn) : TryStep → Conn
  | .stmt isDdl f => execStmt c isDdl f
  | .raiseErr => c
  | .commitStep => { c with committed := c.pending }

/-- With a never-failing oracle, running a raise-free `try` block is a left
fold of its steps and reports success. -/
lemma runTry_nf (steps : List TryStep) (hnr : TryStep.raiseErr ∉ steps) :
    ∀ (c : Conn) (i : Nat),
      runTry (fun _ => false) c i steps = (steps.foldl applyStepNF c, true) := by
  induction steps with
  | nil => intro c i; rfl
  | cons s rest ih =>
    intro c i
    have hs : s ≠ TryStep.raiseErr := fun h => hnr (by simp [h])
    have hrest : TryStep.raiseErr ∉ rest := fun h => hnr (List.mem_cons_of_mem _ h)
    cases s with
    | raiseErr => exact absurd rfl hs
    | commitStep => simpa [runTry, applyStepNF] using ih hrest _ (i + 1)
    | stmt isDdl f => simpa [runTry, applyStepNF] using ih hrest _ (i + 1)

/-- Folding the chunked staging statements extends the scratch relation by
the flattened chunks, touching nothing else. -/
lemma foldl_stage_chunks (chunks : List (List DeletionRow)) :
    ∀ (committed : Store) (D : DB) (t : List TmpRow),
      ((chunks.map (fun ch => TryStep.stmt false (stageTmpRows ch))).foldl
          applyStepNF ⟨committed, ⟨D, some t⟩⟩) =
        ⟨committed, ⟨D, some (t ++ (chunks.flatten).map TmpRow.ofReq)⟩⟩ := by
  induction chunks with
  | nil => intro committed D t; simp
  | cons ch rest ih =>
    intro committed D t
    have hstep : applyStepNF ⟨committed, ⟨D, some t⟩⟩
        (TryStep.stmt false (stageTmpRows ch)) =
        ⟨committed, ⟨D, some (t ++ ch.map TmpRow.ofReq)⟩⟩ := rfl
    simp only [List.map_cons, List.foldl_cons, hstep, ih]
    simp [List.append_assoc]

/-- Folding the resolution/deletion/recompute/commit tail of the `try`
block from a store with database `D` and staged scratch contents `t0`. -/
lemma foldl_main_steps (S : Store) (D : DB) (t0 : List TmpRow) :
    ([TryStep.stmt false stmtAddHistoryId, .stmt false stmtMarkForUpdateLatest,
      .stmt false stmtDeleteHistory, .stmt false stmtDeleteLatest,
      .stmt false stmtUpdateLatest, .commitStep].foldl applyStepNF
        ⟨S, ⟨D, some t0⟩⟩) =
      ⟨⟨update_latest (delete_latest (delete_history D
            (mark_for_update_latest D (add_history_id D t0))).1
            (mark_for_update_latest D (add_history_id D t0)))
            (mark_for_update_latest D (add_history_id D t0)),
        some (mark_for_update_latest D (add_history_id D t0))⟩,
       ⟨update_latest (delete_latest (delete_history D
            (mark_for_update_latest D (add_history_id D t0))).1
            (mark_for_update_latest D (add_history_id D t0)))
            (mark_for_update_latest D (add_history_id D t0)),
        some (mark_for_update_latest D (add_history_id D t0))⟩⟩ := rfl

/-- C3 amended: in every outcome (success or failure, any failing
statement) the scratch relation `tmp_delete_table` is dropped before the
call exits; a call that returns normally persists all of its history
deletions, latest deletions and latest reinsertions — its committed store
equals the result of the deletion algorithm — and a call rejected by the
argument-type check leaves the committed store unchanged.  (Atomicity under
mid-call failures does not hold in general: see the counterexample, where
the implicit commit of the scratch-table drop persists partial deletions.) -/
theorem delete_batch_tx_amended (c : Conn) (arg : CcDeletions)
    (oracle : Nat → Bool) (hclean : c.pending = c.committed) :
    ((delete_batch_tx c arg oracle).1.committed.tmp = none ∧
     (delete_batch_tx c arg oracle).1.pending.tmp = none) ∧
    (∀ db' total, delete_batch c.committed.db arg = .ok (db', total) →
       (delete_batch_tx c arg (fun _ => false)).2 = true ∧
       (delete_batch_tx c arg (fun _ => false)).1.committed.db = db' ∧
       (delete_batch_tx c arg (fun _ => false)).1.pending.db = db') ∧
    (∀ descr, arg = CcDeletions.otherType descr →
       (delete_batch_tx c arg oracle).1.committed.db = c.committed.db) := by
  refine ⟨?_, ?_, ?_⟩
  · rcases hrun : runTry oracle c 0 (trySteps arg) with ⟨c1, ok⟩
    simp [delete_batch_tx, hrun, execStmt, dropTmpTable]
  · intro db' total hok
    cases arg with
    | otherType descr => simp [delete_batch, parseDeletions] at hok
    | csvFile path parsed =>
      have hnr : TryStep.raiseErr ∉ trySteps (CcDeletions.csvFile path parsed) := by
        intro hmem
        simp only [trySteps, List.mem_append, List.mem_cons, List.mem_singleton,
          List.not_mem_nil] at hmem
        rcases hmem with (h | h) | h <;> simp_all
      have hpre : ([TryStep.stmt true createTmpTable,
          TryStep.stmt true amendTmpTable,
          TryStep.stmt false (stageTmpRows (parsed.map CsvDeletionRow.toDeletionRow))].foldl
            applyStepNF c) =
          ⟨⟨c.pending.db, some []⟩,
           ⟨c.pending.db, some (List.map TmpRow.ofReq
              (parsed.map CsvDeletionRow.toDeletionRow))⟩⟩ := rfl
      have hsplit : trySteps (CcDeletions.csvFile path parsed) =
          [TryStep.stmt true createTmpTable, TryStep.stmt true amendTmpTable,
           TryStep.stmt false (stageTmpRows (parsed.map CsvDeletionRow.toDeletionRow))] ++
          [TryStep.stmt false stmtAddHistoryId, .stmt false stmtMarkForUpdateLatest,
           .stmt false stmtDeleteHistory, .stmt false stmtDeleteLatest,
           .stmt false stmtUpdateLatest, .commitStep] := rfl
      have hfold := runTry_nf _ hnr c 0
      rw [hsplit, List.foldl_append, hpre, foldl_main_steps] at hfold
      have hD : c.pending.db = c.committed.db := by rw [hclean]
      rw [hD] at hfold
      simp only [delete_batch, parseDeletions] at hok
      have hdb' : db' = update_latest (delete_latest (delete_history c.committed.db
            (mark_for_update_latest c.committed.db (add_history_id c.committed.db
              (List.map TmpRow.ofReq (parsed.map CsvDeletionRow.toDeletionRow))))).1
            (mark_for_update_latest c.committed.db (add_history_id c.committed.db
              (List.map TmpRow.ofReq (parsed.map CsvDeletionRow.toDeletionRow)))))
            (mark_for_update_latest c.committed.db (add_history_id c.committed.db
              (List.map TmpRow.ofReq (parsed.map CsvDeletionRow.toDeletionRow)))) := by
        have := (Except.ok.injEq _ _).mp hok.symm
        exact (Prod.mk.injEq _ _ _ _).mp this |>.1
      rw [hdb']
      unfold delete_batch_tx
      rw [hsplit, hfold]
      simp [execStmt, dropTmpTable]
    | tupleList rows =>
      have hnr : TryStep.raiseErr ∉ trySteps (CcDeletions.tupleList rows) := by
        intro hmem
        simp only [trySteps, List.mem_append, List.mem_cons, List.mem_singleton,
          List.not_mem_nil] at hmem
        rcases hmem with (h | h) | h
        · simp_all
        · obtain ⟨ch, _, hch⟩ := List.mem_map.mp h
          exact absurd hch.symm (by simp)
        · simp_all
      have hpre : ([TryStep.stmt true createTmpTable,
          TryStep.stmt true amendTmpTable].foldl applyStepNF c) =
          ⟨⟨c.pending.db, some []⟩, ⟨c.pending.db, some []⟩⟩ := rfl
      have hsplit : trySteps (CcDeletions.tupleList rows) =
          ([TryStep.stmt true createTmpTable, TryStep.stmt true amendTmpTable] ++
           (split_list rows 100000).map (fun ch => TryStep.stmt false (stageTmpRows ch))) ++
          [TryStep.stmt false stmtAddHistoryId, .stmt false stmtMarkForUpdateLatest,
           .stmt false stmtDeleteHistory, .stmt false stmtDeleteLatest,
           .stmt false stmtUpdateLatest, .commitStep] := by
        simp [trySteps]
      have hfold := runTry_nf _ hnr c 0
      rw [hsplit, List.foldl_append, List.foldl_append, hpre,
        foldl_stage_chunks, foldl_main_steps] at hfold
      have hD : c.pending.db = c.committed.db := by rw [hclean]
      rw [hD] at hfold
      simp only [List.nil_append] at hfold
      simp only [delete_batch, parseDeletions] at hok
      have hdb' : db' = update_latest (delete_latest (delete_history c.committed.db
            (mark_for_update_latest c.committed.db (add_history_id c.committed.db
              (List.map TmpRow.ofReq ((split_list rows 100000).flatten))))).1
            (mark_for_update_latest c.committed.db (add_history_id c.committed.db
              (List.map TmpRow.ofReq ((split_list rows 100000).flatten)))))
            (mark_for_update_latest c.committed.db (add_history_id c.committed.db
              (List.map TmpRow.ofReq ((split_list rows 100000).flatten)))) := by
        have := (Except.ok.injEq _ _).mp hok.symm
        exact (Prod.mk.injEq _ _ _ _).mp this |>.1
      rw [hdb']
      unfold delete_batch_tx
      rw [hsplit, hfold]
      simp [execStmt, dropTmpTable]
  · intro descr harg
    subst harg
    have hsteps : trySteps (CcDeletions.otherType descr) =
        [.stmt true createTmpTable, .stmt true amendTmpTable, .raiseErr,
         .stmt false stmtAddHistoryId, .stmt false stmtMarkForUpdateLatest,
         .stmt false stmtDeleteHistory, .stmt false stmtDeleteLatest,
         .stmt false stmtUpdateLatest, .commitStep] := rfl
    unfold delete_batch_tx
    rw [hsteps]
    by_cases h0 : oracle 0 <;> by_cases h1 : oracle 1 <;>
      simp [runTry, h0, h1, execStmt, createTmpTable, amendTmpTable, dropTmpTable, hclean]

/-- Witness for C3 amended: a successful concrete deletion persists the
algorithm's result and drops the scratch relation. -/
theorem delete_batch_tx_amended_witness :
    ((delete_batch_tx connC3 (CcDeletions.tupleList [delReqFor 2])
        (fun _ => false)).1.committed.tmp = none ∧
     (delete_batch_tx connC3 (CcDeletions.tupleList [delReqFor 2])
        (fun _ => false)).1.pending.tmp = none) ∧
    ((delete_batch_tx connC3 (CcDeletions.tupleList [delReqFor 2])
        (fun _ => false)).2 = true ∧
     (delete_batch_tx connC3 (CcDeletions.tupleList [delReqFor 2])
        (fun _ => false)).1.committed.db =
       { dbC3 with
           signal_history := [histRow 0 1 (some 10)]
           signal_latest := [histRow 0 1 (some 10)] }) := by
  have h := delete_batch_tx_amended connC3 (CcDeletions.tupleList [delReqFor 2])
      (fun _ => false) rfl
  have hok := h.2.1 ({ dbC3 with
      signal_history := [histRow 0 1 (some 10)]
      signal_latest := [histRow 0 1 (some 10)] }) (some 1) (by rfl)
  exact ⟨h.1, hok.1, hok.2.1⟩

/-! ### Properties of the tuple-representation order (C9, C10) -/

/-- `fvLt` is irreflexive. -/
lemma fvLt_irrefl (a : FieldVal) : fvLt a a = false := by
  cases a with
  | s v => simp [fvLt]
  | i v => simp [fvLt]
  | oi v => cases v <;> simp [fvLt]

/-- `fvLt` is asymmetric. -/
lemma fvLt_asymm (a b : FieldVal) (h1 : fvLt a b = true) (h2 : fvLt b a = true) :
    False := by
  cases a with
  | s x =>
    cases b with
    | s y => simp [fvLt] at h1 h2; exact lt_asymm h1 h2
    | i y => simp [fvLt] at h2
    | oi y => simp [fvLt] at h2
  | i x =>
    cases b with
    | s y => simp [fvLt] at h1
    | i y => simp [fvLt] at h1 h2; omega
    | oi y => simp [fvLt] at h2
  | oi x =>
    cases b with
    | s y => simp [fvLt] at h1
    | i y => simp [fvLt] at h1
    | oi y =>
      cases x <;> cases y <;> simp [fvLt] at h1 h2
      omega

/-- `fvLt` is transitive. -/
lemma fvLt_trans (a b c : FieldVal) (h1 : fvLt a b = true) (h2 : fvLt b c = true) :
    fvLt a c = true := by
  cases a <;> cases b <;> cases c <;>
    first
    | (simp [fvLt] at h1 h2 ⊢; first | exact lt_trans h1 h2 | omega | trivial)
    | simp [fvLt] at h1 h2 ⊢
    | skip
  all_goals (rename_i x y z; cases x <;> cases y <;> cases z <;>
    simp [fvLt] at h1 h2 ⊢ <;> omega)

/-- `fvLt` is trichotomous. -/
lemma fvLt_tricho (a b : FieldVal) :
    fvLt a b = true ∨ a = b ∨ fvLt b a = true := by
  cases a with
  | s x =>
    cases b with
    | s y =>
      rcases lt_trichotomy x y with h | h | h
      · exact Or.inl (by simp [fvLt, h])
      · exact Or.inr (Or.inl (by rw [h]))
      · exact Or.inr (Or.inr (by simp [fvLt, h]))
    | i y => exact Or.inl (by simp [fvLt])
    | oi y => exact Or.inl (by simp [fvLt])
  | i x =>
    cases b with
    | s y => exact Or.inr (Or.inr (by simp [fvLt]))
    | i y =>
      rcases lt_trichotomy x y with h | h | h
      · exact Or.inl (by simp [fvLt, h])
      · exact Or.inr (Or.inl (by rw [h]))
      · exact Or.inr (Or.inr (by simp [fvLt, h]))
    | oi y => exact Or.inl (by simp [fvLt])
  | oi x =>
    cases b with
    | s y => exact Or.inr (Or.inr (by simp [fvLt]))
    | i y => exact Or.inr (Or.inr (by simp [fvLt]))
    | oi y =>
      cases x with
      | none =>
        cases y with
        | none => exact Or.inr (Or.inl rfl)
        | some z => exact Or.inl (by simp [fvLt])
      | some w =>
        cases y with
        | none => exact Or.inr (Or.inr (by simp [fvLt]))
        | some z =>
          rcases lt_trichotomy w z with h | h | h
          · exact Or.inl (by simp [fvLt, h])
          · exact Or.inr (Or.inl (by rw [h]))
          · exact Or.inr (Or.inr (by simp [fvLt, h]))

/-- Python tuple comparison is asymmetric. -/
lemma pairLt_asymm (p q : String × FieldVal) (h1 : pairLt p q = true)
    (h2 : pairLt q p = true) : False := by
  simp only [pairLt, Bool.or_eq_true, Bool.and_eq_true, decide_eq_true_eq] at h1 h2
  rcases h1 with h1 | ⟨h1e, h1f⟩
  · rcases h2 with h2 | ⟨h2e, h2f⟩
    · exact lt_asymm h1 h2
    · exact absurd h1 (by rw [h2e]; exact lt_irrefl _)
  · rcases h2 with h2 | ⟨h2e, h2f⟩
    · exact absurd h2 (by rw [h1e]; exact lt_irrefl _)
    · exact fvLt_asymm _ _ h1f h2f

/-- Python tuple comparison is transitive. -/
lemma pairLt_trans (p q r : String × FieldVal) (h1 : pairLt p q = true)
    (h2 : pairLt q r = true) : pairLt p r = true := by
  simp only [pairLt, Bool.or_eq_true, Bool.and_eq_true, decide_eq_true_eq] at h1 h2 ⊢
  rcases h1 with h1 | ⟨h1e, h1f⟩
  · rcases h2 with h2 | ⟨h2e, h2f⟩
    · exact Or.inl (lt_trans h1 h2)
    · exact Or.inl (h2e ▸ h1)
  · rcases h2 with h2 | ⟨h2e, h2f⟩
    · exact Or.inl (h1e ▸ h2)
    · exact Or.inr ⟨h1e.trans h2e, fvLt_trans _ _ _ h1f h2f⟩

/-- Python tuple comparison is trichotomous. -/
lemma pairLt_tricho (p q : String × FieldVal) :
    pairLt p q = true ∨ p = q ∨ pairLt q p = true := by
  rcases lt_trichotomy p.1 q.1 with h | h | h
  · exact Or.inl (by simp [pairLt, h])
  · rcases fvLt_tricho p.2 q.2 with hf | hf | hf
    · exact Or.inl (by simp [pairLt, h, hf])
    · exact Or.inr (Or.inl (Prod.ext h hf))
    · exact Or.inr (Or.inr (by simp [pairLt, h.symm, hf]))
  · exact Or.inr (Or.inr (by simp [pairLt, h]))

/-- The list order used by the sort is total. -/
lemma repLe_total (a b : List (String × FieldVal)) :
    repLe a b = true ∨ repLe b a = true := by
  induction a generalizing b with
  | nil => exact Or.inl rfl
  | cons p ps ih =>
    cases b with
    | nil => exact Or.inr rfl
    | cons q qs =>
      rcases pairLt_tricho p q with h | h | h
      · exact Or.inl (by simp [repLe, h])
      · subst h
        rcases ih qs with h2 | h2
        · exact Or.inl (by simp [repLe, h2])
        · exact Or.inr (by simp [repLe, h2])
      · exact Or.inr (by simp [repLe, h])

/-- The list order used by the sort is antisymmetric. -/
lemma repLe_antisymm (a b : List (String × FieldVal)) (h1 : repLe a b = true)
    (h2 : repLe b a = true) : a = b := by
  induction a generalizing b with
  | nil =>
    cases b with
    | nil => rfl
    | cons q qs => simp [repLe] at h2
  | cons p ps ih =>
    cases b with
    | nil => simp [repLe] at h1
    | cons q qs =>
      simp only [repLe, Bool.or_eq_true, Bool.and_eq_true, decide_eq_true_eq] at h1 h2
      rcases h1 with h1 | ⟨h1e, h1r⟩
      · rcases h2 with h2 | ⟨h2e, h2r⟩
        · exact absurd (pairLt_asymm p q h1 h2) (fun h => h)
        · exact absurd h1 (by rw [h2e]; simp [pairLt, fvLt_irrefl])
      · rcases h2 with h2 | ⟨h2e, h2r⟩
        · exact absurd h2 (by rw [h1e]; simp [pairLt, fvLt_irrefl])
        · rw [h1e, ih qs h1r h2r]

/-- The list order used by the sort is transitive. -/
lemma repLe_trans (a b c : List (String × FieldVal)) (h1 : repLe a b = true)
    (h2 : repLe b c = true) : repLe a c = true := by
  induction a generalizing b c with
  | nil => rfl
  | cons p ps ih =>
    cases b with
    | nil => simp [repLe] at h1
    | cons q qs =>
      cases c with
      | nil => simp [repLe] at h2
      | cons r rs =>
        simp only [repLe, Bool.or_eq_true, Bool.and_eq_true, decide_eq_true_eq]
          at h1 h2 ⊢
        rcases h1 with h1 | ⟨h1e, h1r⟩
        · rcases h2 with h2 | ⟨h2e, h2r⟩
          · exact Or.inl (pairLt_trans _ _ _ h1 h2)
          · exact Or.inl (h2e ▸ h1)
        · rcases h2 with h2 | ⟨h2e, h2r⟩
          · exact Or.inl (h1e ▸ h2)
          · exact Or.inr ⟨h1e.trans h2e, ih qs rs h1r h2r⟩

instance : IsTotal (List (String × FieldVal)) RepLe :=
  ⟨fun a b => repLe_total a b⟩

instance : IsTrans (List (String × FieldVal)) RepLe :=
  ⟨fun a b c => repLe_trans a b c⟩

instance : IsAntisymm (List (String × FieldVal)) RepLe :=
  ⟨fun a b => repLe_antisymm a b⟩

/-- Round trip of the sort step: converting a result record to its
prepended-sortable tuple representation and back through `dict` returns the
original record (the prepended sortable pairs are overwritten by the later
duplicates coming from `x.items()`, whose values are the same). -/
lemma metaRowOfPairs_prepended (x : MetaRow) :
    metaRowOfPairs (prepended_sortables_fn x) = some x := rfl

/-- C10 (sort step is content-preserving): the list returned by the final
sort of `compute_covidcast_meta` is exactly a permutation of the collected
records, and every record survives the tuple/dict round trip unchanged. -/
theorem sort_step_content_preserving (meta : List MetaRow) :
    (sortMetaStep meta).Perm meta ∧
    meta.map (fun x => metaRowOfPairs (prepended_sortables_fn x)) =
      meta.map some := by
  constructor
  · have hperm : (List.insertionSort RepLe (meta.map prepended_sortables_fn)).Perm
        (meta.map prepended_sortables_fn) :=
      List.perm_insertionSort RepLe _
    have h1 : (sortMetaStep meta).Perm
        ((meta.map prepended_sortables_fn).filterMap metaRowOfPairs) :=
      List.Perm.filterMap metaRowOfPairs hperm
    have h2 : (meta.map prepended_sortables_fn).filterMap metaRowOfPairs = meta := by
      rw [List.filterMap_map]
      have : ∀ y ∈ meta, (metaRowOfPairs ∘ prepended_sortables_fn) y = some y := by
        intro y _
        exact metaRowOfPairs_prepended y
      calc (meta.filterMap (metaRowOfPairs ∘ prepended_sortables_fn))
          = meta.filterMap some := List.filterMap_congr this
        _ = meta := List.filterMap_some meta
    rw [h2] at h1
    exact h1
  · exact List.map_congr_left (fun y _ => metaRowOfPairs_prepended y)

/-- The tuple representation starts with the four sorting-field pairs. -/
lemma prepended_eq (x : MetaRow) : prepended_sortables_fn x =
    ("data_source", .s x.data_source) :: ("signal", .s x.signal) ::
    ("time_type", .s x.time_type) :: ("geo_type", .s x.geo_type) :: x.items := rfl

/-- Unfolding one pair comparison. -/
lemma pairLt_cases (p q : String × FieldVal) (h : pairLt p q = true) :
    p.1 < q.1 ∨ (p.1 = q.1 ∧ fvLt p.2 q.2 = true) := by
  simpa [pairLt] using h

/-- Comparing tuple representations sorts by the four-field key. -/
lemma key4Le_of_repLe (x y : MetaRow)
    (h : RepLe (prepended_sortables_fn x) (prepended_sortables_fn y)) :
    key4Le x y := by
  rw [RepLe, prepended_eq, prepended_eq] at h
  simp only [repLe, Bool.or_eq_true, Bool.and_eq_true, decide_eq_true_eq] at h
  rcases h with h | ⟨h1, h⟩
  · rcases pairLt_cases _ _ h with hlt | ⟨_, hf⟩
    · exact absurd hlt (lt_irrefl _)
    · simp only [fvLt, decide_eq_true_eq] at hf
      exact Or.inl hf
  · have e1 : x.data_source = y.data_source := by
      have := (Prod.mk.injEq _ _ _ _).mp h1
      exact FieldVal.s.inj this.2
    rcases h with h | ⟨h2, h⟩
    · rcases pairLt_cases _ _ h with hlt | ⟨_, hf⟩
      · exact absurd hlt (lt_irrefl _)
      · simp only [fvLt, decide_eq_true_eq] at hf
        exact Or.inr ⟨e1, Or.inl hf⟩
    · have e2 : x.signal = y.signal := by
        have := (Prod.mk.injEq _ _ _ _).mp h2
        exact FieldVal.s.inj this.2
      rcases h with h | ⟨h3, h⟩
      · rcases pairLt_cases _ _ h with hlt | ⟨_, hf⟩
        · exact absurd hlt (lt_irrefl _)
        · simp only [fvLt, decide_eq_true_eq] at hf
          exact Or.inr ⟨e1, Or.inr ⟨e2, Or.inl hf⟩⟩
      · have e3 : x.time_type = y.time_type := by
          have := (Prod.mk.injEq _ _ _ _).mp h3
          exact FieldVal.s.inj this.2
        rcases h with h | ⟨h4, _⟩
        · rcases pairLt_cases _ _ h with hlt | ⟨_, hf⟩
          · exact absurd hlt (lt_irrefl _)
          · simp only [fvLt, decide_eq_true_eq] at hf
            exact Or.inr ⟨e1, Or.inr ⟨e2, Or.inr ⟨e3, le_of_lt hf⟩⟩⟩
        · have e4 : x.geo_type = y.geo_type := by
            have := (Prod.mk.injEq _ _ _ _).mp h4
            exact FieldVal.s.inj this.2
          exact Or.inr ⟨e1, Or.inr ⟨e2, Or.inr ⟨e3, le_of_eq e4⟩⟩⟩

/-- Reconstructing records from a representation list that is sorted by the
tuple order yields a list sorted by the four-field key. -/
lemma sorted_key4_filterMap :
    ∀ (l : List (List (String × FieldVal))),
      (∀ r ∈ l, ∃ y : MetaRow, r = prepended_sortables_fn y) →
      l.Sorted RepLe → (l.filterMap metaRowOfPairs).Sorted key4Le := by
  intro l
  induction l with
  | nil => intro _ _; simp
  | cons r t ih =>
    intro hrep hsorted
    obtain ⟨y, hy⟩ := hrep r (by simp)
    have hrecon : metaRowOfPairs r = some y := by
      rw [hy]; exact metaRowOfPairs_prepended y
    rw [List.filterMap_cons, hrecon]
    rw [List.sorted_cons] at hsorted
    rw [List.sorted_cons]
    constructor
    · intro b hb
      obtain ⟨rb, hrb, hrb2⟩ := List.mem_filterMap.mp hb
      obtain ⟨yb, hyb⟩ := hrep rb (List.mem_cons_of_mem _ hrb)
      have : b = yb := by
        rw [hyb, metaRowOfPairs_prepended] at hrb2
        exact (Option.some.injEq _ _).mp hrb2.symm
      subst this
      have hle : RepLe r rb := hsorted.1 rb hrb
      rw [hy, hyb] at hle
      exact key4Le_of_repLe _ _ hle
    · exact ih (fun r' hr' => hrep r' (List.mem_cons_of_mem _ hr')) hsorted.2

/-- C9 (Metadata Aggregator determinism): the list returned by
`compute_covidcast_meta` is sorted by (data_source, signal, time_type,
geo_type), and — given the same per-pair query results over the same
underlying Latest data, whose aggregation groups have pairwise distinct
keys — it is identical for any two completion orders of the worker pool
(in particular for 1 worker versus N workers). -/
theorem compute_covidcast_meta_deterministic
    (results : String × String → List MetaRow) (o1 o2 : List (String × String))
    (hperm : o1.Perm o2)
    (hkeys : ∀ x ∈ collectMeta o1 results, ∀ y ∈ collectMeta o1 results,
       sortKeyTuple x = sortKeyTuple y → x = y) :
    compute_covidcast_meta o1 results = compute_covidcast_meta o2 results ∧
    (compute_covidcast_meta o1 results).Sorted key4Le := by
  have hc : (collectMeta o1 results).Perm (collectMeta o2 results) :=
    hperm.flatMap_right results
  have hreps : ((collectMeta o1 results).map prepended_sortables_fn).Perm
      ((collectMeta o2 results).map prepended_sortables_fn) := hc.map _
  have hs1 := List.sorted_insertionSort RepLe
      ((collectMeta o1 results).map prepended_sortables_fn)
  have hs2 := List.sorted_insertionSort RepLe
      ((collectMeta o2 results).map prepended_sortables_fn)
  have hsp : (List.insertionSort RepLe
      ((collectMeta o1 results).map prepended_sortables_fn)).Perm
      (List.insertionSort RepLe
        ((collectMeta o2 results).map prepended_sortables_fn)) :=
    ((List.perm_insertionSort RepLe _).trans hreps).trans
      (List.perm_insertionSort RepLe _).symm
  have heq := List.eq_of_perm_of_sorted hsp hs1 hs2
  constructor
  · simp only [compute_covidcast_meta, sortMetaStep]
    rw [heq]
  · simp only [compute_covidcast_meta, sortMetaStep]
    refine sorted_key4_filterMap _ ?_ hs1
    intro r hr
    have hmem : r ∈ (collectMeta o1 results).map prepended_sortables_fn :=
      (List.perm_insertionSort RepLe _).mem_iff.mp hr
    obtain ⟨y, _, hy⟩ := List.mem_map.mp hmem
    exact ⟨y, hy.symm⟩

/-- A concrete two-pair query-result function. -/
def resultsW : String × String → List MetaRow := fun p =>
  if p = ("a", "x") then [mRow "a" "x" 0]
  else if p = ("b", "y") then [mRow "b" "y" 5] else []

/-- Witness for C9: the two worker completion orders of the two pairs give
the same aggregated output. -/
theorem compute_covidcast_meta_deterministic_witness :
    compute_covidcast_meta [("a", "x"), ("b", "y")] resultsW =
      compute_covidcast_meta [("b", "y"), ("a", "x")] resultsW :=
  (compute_covidcast_meta_deterministic resultsW
      [("a", "x"), ("b", "y")] [("b", "y"), ("a", "x")]
      (by decide) (by decide)).1

/-! ### Maximum-issue arithmetic -/

/-- `intMax?` is `none` exactly on the empty list. -/
lemma intMax?_eq_none {xs : List Int} : intMax? xs = none ↔ xs = [] := by
  cases xs <;> simp [intMax?]

/-- The maximum is attained and bounds every element. -/
lemma intMax?_spec : ∀ {xs : List Int} {m : Int}, intMax? xs = some m →
    m ∈ xs ∧ ∀ y ∈ xs, y ≤ m := by
  intro xs
  induction xs with
  | nil => intro m h; simp [intMax?] at h
  | cons x t ih =>
    intro m h
    simp only [intMax?] at h
    rcases ht : intMax? t with _ | mt
    · rw [ht] at h
      have hte : t = [] := intMax?_eq_none.mp ht
      subst hte
      simp at h
      subst h
      simp
    · rw [ht] at h
      simp only [Option.some.injEq] at h
      obtain ⟨hmem, hbound⟩ := ih ht
      constructor
      · rcases max_choice x mt with hc | hc
        · rw [← h, hc]; simp
        · rw [← h, hc]; exact List.mem_cons_of_mem _ hmem
      · intro y hy
        rcases List.mem_cons.mp hy with hc | hc
        · subst hc; rw [← h]; exact le_max_left _ _
        · exact le_trans (hbound y hc) (by rw [← h]; exact le_max_right _ _)

/-- Characterisation of the maximum. -/
lemma intMax?_eq_some_iff {xs : List Int} {m : Int} :
    intMax? xs = some m ↔ m ∈ xs ∧ ∀ y ∈ xs, y ≤ m := by
  constructor
  · exact intMax?_spec
  · rintro ⟨hmem, hbound⟩
    rcases h : intMax? xs with _ | m'
    · rw [intMax?_eq_none.mp h] at hmem; simp at hmem
    · obtain ⟨hmem', hbound'⟩ := intMax?_spec h
      exact congrArg some (le_antisymm (hbound m' hmem') (hbound' m hmem))

/-- `foldl max` computes the same maximum as `intMax?`. -/
lemma foldl_max_intMax? : ∀ (xs : List Int) (x : Int),
    xs.foldl max x = match intMax? xs with | none => x | some m => max x m := by
  intro xs
  induction xs with
  | nil => intro x; rfl
  | cons y ys ih =>
    intro x
    simp only [List.foldl_cons, intMax?]
    rw [ih (max x y)]
    rcases h : intMax? ys with _ | m
    · simp
    · simp only []
      rw [max_assoc]

/-! ### Generic table lemmas -/

/-- In a table whose `f`-keys are pairwise distinct, restricting to one key
yields the empty list or a singleton. -/
lemma filter_key_of_nodup {α κ : Type} [DecidableEq κ] (f : α → κ) :
    ∀ (l : List α), (l.map f).Nodup → ∀ (k : κ),
      l.filter (fun a => decide (f a = k)) = [] ∨
      ∃ a, l.filter (fun a => decide (f a = k)) = [a] ∧ f a = k := by
  intro l
  induction l with
  | nil => intro _ k; exact Or.inl rfl
  | cons a t ih =>
    intro hnd k
    simp only [List.map_cons, List.nodup_cons] at hnd
    by_cases hk : f a = k
    · right
      refine ⟨a, ?_, hk⟩
      have htnil : t.filter (fun b => decide (f b = k)) = [] := by
        rw [List.filter_eq_nil_iff]
        intro b hb
        simp only [decide_eq_true_eq]
        intro hbk
        have hfab : f a = f b := hk.trans hbk.symm
        exact hnd.1 (by rw [hfab]; exact List.mem_map_of_mem f hb)
      simp [List.filter_cons, hk, htnil]
    · have hstep : List.filter (fun b => decide (f b = k)) (a :: t) =
          List.filter (fun b => decide (f b = k)) t := by
        simp [List.filter_cons, hk]
      rw [hstep]
      exact ih hnd.2 k

/-! ### Upsert lemmas -/

/-- An upsert whose key is absent appends the row. -/
lemma upsert_absent {κ : Type} [DecidableEq κ] (keyf : Row → κ) (t : List Row)
    (r : Row) (h : ∀ h' ∈ t, keyf h' ≠ keyf r) :
    upsert keyf t r = t ++ [r] := by
  unfold upsert
  rw [if_neg]
  intro hc
  obtain ⟨x, hx, hk⟩ := List.any_eq_true.mp hc
  exact h x hx (by simpa using hk)

/-- An upsert whose key is present replaces the matching rows in place. -/
lemma upsert_present {κ : Type} [DecidableEq κ] (keyf : Row → κ) (t : List Row)
    (r : Row) (h : ∃ h' ∈ t, keyf h' = keyf r) :
    upsert keyf t r = t.map (fun h' => if keyf h' = keyf r then r else h') := by
  unfold upsert
  rw [if_pos]
  rw [List.any_eq_true]
  obtain ⟨h', hmem, hkey⟩ := h
  exact ⟨h', hmem, by simp [hkey]⟩

/-- Upserting keeps the multiset of keys when the key is present and
appends the new key otherwise; in both cases key-nodup is preserved. -/
lemma upsert_map_key {κ : Type} [DecidableEq κ] (keyf : Row → κ) (t : List Row)
    (r : Row) :
    (upsert keyf t r).map keyf = t.map keyf ∨
    (upsert keyf t r).map keyf = t.map keyf ++ [keyf r] ∧ keyf r ∉ t.map keyf := by
  by_cases h : ∃ h' ∈ t, keyf h' = keyf r
  · left
    rw [upsert_present keyf t r h, List.map_map]
    refine List.map_congr_left ?_
    intro a _
    by_cases ha : keyf a = keyf r <;> simp [ha]
  · right
    push_neg at h
    rw [upsert_absent keyf t r h]
    constructor
    · simp
    · simp only [List.mem_map, not_exists]
      intro x
      intro hc
      rcases hc with ⟨hx, hk⟩
      exact h x hx hk

/-- Members of an upsert come from the table or are the upserted row. -/
lemma mem_upsert {κ : Type} [DecidableEq κ] (keyf : Row → κ) (t : List Row)
    (r : Row) (x : Row) (hx : x ∈ upsert keyf t r) : x ∈ t ∨ x = r := by
  unfold upsert at hx
  by_cases h : t.any (fun h' => decide (keyf h' = keyf r)) = true
  · rw [if_pos h] at hx
    obtain ⟨a, ha, hax⟩ := List.mem_map.mp hx
    by_cases hk : keyf a = keyf r
    · right; rw [← hax]; simp [hk]
    · left; rw [← hax]; simpa [hk] using ha
  · rw [if_neg h] at hx
    rcases List.mem_append.mp hx with h1 | h1
    · exact Or.inl h1
    · exact Or.inr (List.mem_singleton.mp h1)

/-- Restricting a table to a key-determined predicate commutes with an
upsert. -/
lemma filter_upsert {κ : Type} [DecidableEq κ] (keyf : Row → κ) (P : Row → Bool)
    (hP : ∀ a b : Row, keyf a = keyf b → P a = P b) (t : List Row) (r : Row) :
    (upsert keyf t r).filter P =
      if P r then upsert keyf (t.filter P) r else t.filter P := by
  by_cases hpres : ∃ h' ∈ t, keyf h' = keyf r
  · rw [upsert_present keyf t r hpres]
    by_cases hPr : P r = true
    · rw [if_pos hPr]
      have hcomm : (t.map (fun h' => if keyf h' = keyf r then r else h')).filter P
          = (t.filter P).map (fun h' => if keyf h' = keyf r then r else h') := by
        rw [List.filter_map]
        congr 1
        apply List.filter_congr
        intro a _
        by_cases hk : keyf a = keyf r
        · simp only [Function.comp, if_pos hk]
          exact (hP a r hk).symm
        · simp [Function.comp, hk]
      rw [hcomm]
      obtain ⟨h', hm, hkey⟩ := hpres
      have hPh' : P h' = true := by rw [hP h' r hkey]; exact hPr
      rw [upsert_present keyf (t.filter P) r
        ⟨h', List.mem_filter.mpr ⟨hm, hPh'⟩, hkey⟩]
    · rw [if_neg hPr]
      rw [List.filter_map]
      have hfilt : t.filter ((fun h' => P h') ∘ (fun h' => if keyf h' = keyf r then r else h'))
          = t.filter P := by
        apply List.filter_congr
        intro a _
        by_cases hk : keyf a = keyf r
        · simp only [Function.comp, if_pos hk]
          exact ((hP a r hk).symm : P r = P a)
        · simp [Function.comp, hk]
      have hmapid : ∀ (l : List Row), (∀ a ∈ l, P a = true) →
          l.map (fun h' => if keyf h' = keyf r then r else h') = l := by
        intro l hl
        conv_rhs => rw [← List.map_id l]
        apply List.map_congr_left
        intro a ha
        have hne : keyf a ≠ keyf r := by
          intro hk
          have := hP a r hk
          rw [hl a ha] at this
          exact hPr this.symm
        simp [hne]
      calc (t.filter ((fun h' => P h') ∘ fun h' => if keyf h' = keyf r then r else h')).map
            (fun h' => if keyf h' = keyf r then r else h')
          = (t.filter P).map (fun h' => if keyf h' = keyf r then r else h') := by rw [hfilt]
        _ = t.filter P := hmapid _ (fun a ha => (List.mem_filter.mp ha).2)
  · push_neg at hpres
    rw [upsert_absent keyf t r hpres, List.filter_append]
    by_cases hPr : P r = true
    · rw [if_pos hPr]
      have hr : List.filter P [r] = [r] := by simp [hPr]
      rw [hr, upsert_absent keyf (t.filter P) r
        (fun h' hm => hpres h' (List.mem_of_mem_filter hm))]
    · rw [if_neg hPr]
      have hr : List.filter P [r] = [] := by
        simp only [List.filter_cons, List.filter_nil]
        rw [if_neg hPr]
      rw [hr, List.append_nil]

/-- Restricting to a key-determined predicate commutes with a whole batch of
upserts. -/
lemma filter_foldl_upsert {κ : Type} [DecidableEq κ] (keyf : Row → κ)
    (P : Row → Bool) (hP : ∀ a b : Row, keyf a = keyf b → P a = P b) :
    ∀ (bs : List Row) (t : List Row),
      ((bs.foldl (upsert keyf) t).filter P) =
        (bs.filter P).foldl (upsert keyf) (t.filter P) := by
  intro bs
  induction bs with
  | nil => intro t; rfl
  | cons r bs' ih =>
    intro t
    simp only [List.foldl_cons, List.filter_cons]
    rw [ih (upsert keyf t r), filter_upsert keyf P hP t r]
    by_cases hPr : P r = true
    · rw [if_pos hPr, if_pos hPr, List.foldl_cons]
    · rw [if_neg hPr, if_neg hPr]

/-- Folding a batch of upserts preserves id-uniqueness and key-uniqueness
when the batch rows carry fresh pairwise-distinct ids, and produces only
rows of the table or of the batch. -/
lemma foldl_upsert_nodups {κ : Type} [DecidableEq κ] (keyf : Row → κ) :
    ∀ (bs : List Row) (t : List Row),
      (t.map Row.signal_data_id).Nodup → (t.map keyf).Nodup →
      (∀ h ∈ t, h.signal_data_id ∉ bs.map Row.signal_data_id) →
      (bs.map Row.signal_data_id).Nodup →
      (((bs.foldl (upsert keyf) t).map Row.signal_data_id).Nodup ∧
       ((bs.foldl (upsert keyf) t).map keyf).Nodup ∧
       (∀ x ∈ bs.foldl (upsert keyf) t, x ∈ t ∨ x ∈ bs)) := by
  intro bs
  induction bs with
  | nil => intro t h1 h2 _ _; exact ⟨h1, h2, fun x hx => Or.inl hx⟩
  | cons r bs' ih =>
    intro t hids hkeys havoid hbsids
    simp only [List.map_cons, List.nodup_cons] at hbsids
    have hrid : ∀ h ∈ t, h.signal_data_id ≠ r.signal_data_id := by
      intro h hm hc
      exact havoid h hm (by simp [hc])
    have hids' : ((upsert keyf t r).map Row.signal_data_id).Nodup := by
      by_cases hpres : ∃ h' ∈ t, keyf h' = keyf r
      · rw [upsert_present keyf t r hpres, List.map_map]
        unfold List.Nodup
        rw [List.pairwise_map]
        have p1 : t.Pairwise (fun a b => a.signal_data_id ≠ b.signal_data_id) := by
          unfold List.Nodup at hids
          rwa [List.pairwise_map] at hids
        have p2 : t.Pairwise (fun a b => keyf a ≠ keyf b) := by
          unfold List.Nodup at hkeys
          rwa [List.pairwise_map] at hkeys
        refine (p1.and p2).imp_of_mem ?_
        intro a b ha hb hab
        simp only [Function.comp]
        by_cases hka : keyf a = keyf r <;> by_cases hkb : keyf b = keyf r
        · exact absurd (hka.trans hkb.symm) hab.2
        · simp only [if_pos hka, if_neg hkb]
          exact fun hc => hrid b hb hc.symm
        · simp only [if_pos hkb, if_neg hka]
          exact fun hc => hrid a ha hc
        · simp only [if_neg hka, if_neg hkb]
          exact hab.1
      · push_neg at hpres
        rw [upsert_absent keyf t r hpres]
        simp only [List.map_append, List.map_cons, List.map_nil]
        refine List.Nodup.append hids (by simp) ?_
        intro x hx hx2
        simp only [List.mem_map] at hx
        obtain ⟨h', hm, hid⟩ := hx
        simp only [List.mem_cons, List.not_mem_nil, or_false] at hx2
        exact hrid h' hm (hid.symm ▸ hx2)
    have hkeys' : ((upsert keyf t r).map keyf).Nodup := by
      rcases upsert_map_key keyf t r with h | ⟨h, hnm⟩
      · rw [h]; exact hkeys
      · rw [h]
        refine List.Nodup.append hkeys (by simp) ?_
        intro x hx hx2
        simp only [List.mem_cons, List.not_mem_nil, or_false] at hx2
        subst hx2
        exact hnm hx
    have havoid' : ∀ h ∈ upsert keyf t r,
        h.signal_data_id ∉ bs'.map Row.signal_data_id := by
      intro h hm
      rcases mem_upsert keyf t r h hm with hmem | heq
      · intro hc
        exact havoid h hmem (List.mem_cons_of_mem _ hc)
      · rw [heq]
        exact hbsids.1
    obtain ⟨i1, i2, i3⟩ := ih (upsert keyf t r) hids' hkeys' havoid' hbsids.2
    refine ⟨i1, i2, ?_⟩
    intro x hx
    rcases i3 x hx with hmem | hmem
    · rcases mem_upsert keyf t r x hmem with h | h
      · exact Or.inl h
      · exact Or.inr (by simp [h])
    · exact Or.inr (List.mem_cons_of_mem _ hmem)

/-! ### The staged batch seen by `run_dbjobs` -/

/-- The corrected `is_latest_issue` flag of a staged row: true unless some
existing latest row for the same natural key has a strictly greater issue. -/
def winsLatest (db : DB) (r : Row) : Bool :=
  !(db.signal_latest.any (fun l =>
      decide (l.natKey = r.natKey) && decide (r.issue < l.issue)))

/-- The rows staged for a batch, in staging order, with their fresh ids. -/
def batchRows (db : DB) (now : Int) (rows : List CovidcastRow) : List Row :=
  rows.enum.map (fun p => (stageRow now (db.next_data_id + p.1) p.2).row)

/-- The staging table contents after staging a batch onto an empty staging
table and running the flag-correction pass. -/
lemma staged_load (db : DB) (now : Int) (rows : List CovidcastRow)
    (hload : db.signal_load = []) :
    (fix_is_latest_issue (stageRows now db rows)).signal_load =
      rows.enum.map (fun p =>
        { stageRow now (db.next_data_id + p.1) p.2 with
            is_latest_issue :=
              winsLatest db (stageRow now (db.next_data_id + p.1) p.2).row }) := by
  simp only [fix_is_latest_issue, stageRows, hload, List.nil_append, List.map_map]
  apply List.map_congr_left
  intro p _
  simp only [Function.comp]
  by_cases hc : db.signal_latest.any (fun l =>
      decide (l.natKey = (stageRow now (db.next_data_id + p.1) p.2).row.natKey) &&
      decide ((stageRow now (db.next_data_id + p.1) p.2).row.issue < l.issue)) = true
  · rw [if_pos hc]
    unfold winsLatest
    rw [hc]
    rfl
  · rw [if_neg hc]
    unfold winsLatest
    have hc' : (db.signal_latest.any (fun l =>
        decide (l.natKey = (stageRow now (db.next_data_id + p.1) p.2).row.natKey) &&
        decide ((stageRow now (db.next_data_id + p.1) p.2).row.issue < l.issue))) = false := by
      simpa using hc
    rw [hc']
    rfl

/-- Every staged row joins both dimension registries after the two
dimension-registration statements. -/
lemma joins_after_dims (db : DB) :
    ∀ lr ∈ db.signal_load,
      joinsDims (geo_dim_add_new_load (signal_dim_add_new_load db)) lr.row = true := by
  intro lr hmem
  have hsig : (lr.row.source, lr.row.signal) ∈
      (geo_dim_add_new_load (signal_dim_add_new_load db)).signal_dim := by
    show (lr.row.source, lr.row.signal) ∈ (signal_dim_add_new_load db).signal_dim
    unfold signal_dim_add_new_load
    simp only [List.mem_append]
    by_cases hin : db.signal_dim.any
        (fun q => decide (q = (lr.row.source, lr.row.signal))) = true
    · left
      obtain ⟨q, hq, hqe⟩ := List.any_eq_true.mp hin
      simpa using (by rw [← (of_decide_eq_true hqe)]; exact hq)
    · right
      rw [List.mem_filter]
      constructor
      · rw [List.mem_dedup]
        exact List.mem_map_of_mem _ hmem
      · simp only [Bool.not_eq_true] at hin
        simp [hin]
  have hgeo : (lr.row.geo_type, lr.row.geo_value) ∈
      (geo_dim_add_new_load (signal_dim_add_new_load db)).geo_dim := by
    unfold geo_dim_add_new_load
    simp only [List.mem_append]
    by_cases hin : (signal_dim_add_new_load db).geo_dim.any
        (fun q => decide (q = (lr.row.geo_type, lr.row.geo_value))) = true
    · left
      obtain ⟨q, hq, hqe⟩ := List.any_eq_true.mp hin
      simpa using (by rw [← (of_decide_eq_true hqe)]; exact hq)
    · right
      rw [List.mem_filter]
      constructor
      · rw [List.mem_dedup]
        exact List.mem_map_of_mem _ hmem
      · simp only [Bool.not_eq_true] at hin
        simp [hin]
  unfold joinsDims
  rw [Bool.and_eq_true]
  constructor
  · exact List.any_eq_true.mpr ⟨_, hsig, by simp⟩
  · exact List.any_eq_true.mpr ⟨_, hgeo, by simp⟩

/-- `run_dbjobs` on a covered staging table is a pair of upsert folds. -/
lemma run_dbjobs_tables (db : DB) :
    (run_dbjobs db).signal_history =
      (db.signal_load.map LoadRow.row).foldl (upsert Row.fullKey) db.signal_history ∧
    (run_dbjobs db).signal_latest =
      ((db.signal_load.filter LoadRow.is_latest_issue).map LoadRow.row).foldl
        (upsert Row.natKey) db.signal_latest ∧
    (run_dbjobs db).next_data_id = db.next_data_id := by
  have hcover := joins_after_dims db
  have hjoined : (geo_dim_add_new_load (signal_dim_add_new_load db)).signal_load.filter
      (fun lr => joinsDims (geo_dim_add_new_load (signal_dim_add_new_load db)) lr.row) =
      db.signal_load := by
    exact List.filter_eq_self.mpr hcover
  refine ⟨?_, ?_, rfl⟩
  · show ((geo_dim_add_new_load (signal_dim_add_new_load db)).signal_load.filter
      (fun lr => joinsDims (geo_dim_add_new_load (signal_dim_add_new_load db)) lr.row)).foldl
        (fun t lr => upsert Row.fullKey t lr.row) db.signal_history = _
    rw [hjoined, ← List.foldl_map LoadRow.row (upsert Row.fullKey)]
  · show (((geo_dim_add_new_load (signal_dim_add_new_load db)).signal_load.filter
      (fun lr => joinsDims (geo_dim_add_new_load (signal_dim_add_new_load db)) lr.row)).filter
        (fun lr => lr.is_latest_issue)).foldl
        (fun t lr => upsert Row.natKey t lr.row) db.signal_latest = _
    rw [hjoined, ← List.foldl_map LoadRow.row (upsert Row.natKey)]

/-- The merge of a staged batch, as upsert folds over the batch rows. -/
lemma mergeStagedBatch_tables (db : DB) (now : Int) (rows : List CovidcastRow)
    (hload : db.signal_load = []) :
    (mergeStagedBatch db now rows).signal_history =
      (batchRows db now rows).foldl (upsert Row.fullKey) db.signal_history ∧
    (mergeStagedBatch db now rows).signal_latest =
      ((batchRows db now rows).filter (winsLatest db)).foldl
        (upsert Row.natKey) db.signal_latest ∧
    (mergeStagedBatch db now rows).signal_load = [] ∧
    (mergeStagedBatch db now rows).next_data_id = db.next_data_id + rows.length := by
  have hstaged := staged_load db now rows hload
  have hrun := run_dbjobs_tables (fix_is_latest_issue (stageRows now db rows))
  have hhist : (fix_is_latest_issue (stageRows now db rows)).signal_history =
      db.signal_history := rfl
  have hlat : (fix_is_latest_issue (stageRows now db rows)).signal_latest =
      db.signal_latest := rfl
  have hnext : (fix_is_latest_issue (stageRows now db rows)).next_data_id =
      db.next_data_id + rows.length := rfl
  refine ⟨?_, ?_, rfl, ?_⟩
  · rw [show (mergeStagedBatch db now rows).signal_history =
        (run_dbjobs (fix_is_latest_issue (stageRows now db rows))).signal_history from rfl,
      hrun.1, hstaged, hhist, List.map_map]
    congr 1
  · rw [show (mergeStagedBatch db now rows).signal_latest =
        (run_dbjobs (fix_is_latest_issue (stageRows now db rows))).signal_latest from rfl,
      hrun.2.1, hstaged, hlat, List.filter_map, List.map_map]
    congr 1
    unfold batchRows
    rw [List.filter_map]
    congr 1
  · rw [show (mergeStagedBatch db now rows).next_data_id =
        (run_dbjobs (fix_is_latest_issue (stageRows now db rows))).next_data_id from rfl,
      hrun.2.2, hnext]

/-- The natural keys of a staged batch are the natural keys of its drafts. -/
lemma batchRows_map_natKey (db : DB) (now : Int) (rows : List CovidcastRow) :
    (batchRows db now rows).map Row.natKey = rows.map CovidcastRow.natKey := by
  unfold batchRows
  rw [List.map_map]
  have h1 : (Row.natKey ∘ fun p : Nat × CovidcastRow =>
      (stageRow now (db.next_data_id + p.1) p.2).row) =
      (CovidcastRow.natKey ∘ Prod.snd) := rfl
  rw [h1, ← List.map_map, List.enum_map_snd]

/-- The ids of a staged batch are consecutive fresh ids. -/
lemma batchRows_map_id (db : DB) (now : Int) (rows : List CovidcastRow) :
    (batchRows db now rows).map Row.signal_data_id =
      (List.range rows.length).map (fun i => db.next_data_id + i) := by
  unfold batchRows
  rw [List.map_map]
  have h1 : (Row.signal_data_id ∘ fun p : Nat × CovidcastRow =>
      (stageRow now (db.next_data_id + p.1) p.2).row) =
      ((fun i => db.next_data_id + i) ∘ Prod.fst) := rfl
  rw [h1, ← List.map_map, List.enum_map_fst]

/-- Batch ids are pairwise distinct. -/
lemma batchRows_id_nodup (db : DB) (now : Int) (rows : List CovidcastRow) :
    ((batchRows db now rows).map Row.signal_data_id).Nodup := by
  rw [batchRows_map_id]
  exact (List.nodup_range _).map (fun a b h => by omega)

/-- Batch ids lie in the fresh range. -/
lemma batchRows_id_bounds (db : DB) (now : Int) (rows : List CovidcastRow) :
    ∀ x ∈ batchRows db now rows,
      db.next_data_id ≤ x.signal_data_id ∧
      x.signal_data_id < db.next_data_id + rows.length := by
  intro x hx
  have hmem : x.signal_data_id ∈ (batchRows db now rows).map Row.signal_data_id :=
    List.mem_map_of_mem _ hx
  rw [batchRows_map_id] at hmem
  obtain ⟨i, hi, heq⟩ := List.mem_map.mp hmem
  rw [List.mem_range] at hi
  omega

/-- The invariants maintained by the public operations: empty staging,
unique full keys and ids in history, unique natural keys and ids in latest,
latest ids naming only same-key history rows, all ids below the
AUTO_INCREMENT counter, and the latest-projection invariant itself. -/
structure GoodDB (db : DB) : Prop where
  load_empty : db.signal_load = []
  hist_fullKey_nodup : (db.signal_history.map Row.fullKey).Nodup
  hist_id_nodup : (db.signal_history.map Row.signal_data_id).Nodup
  lat_natKey_nodup : (db.signal_latest.map Row.natKey).Nodup
  lat_id_nodup : (db.signal_latest.map Row.signal_data_id).Nodup
  id_key_coherent : ∀ l ∈ db.signal_latest, ∀ h ∈ db.signal_history,
      h.signal_data_id = l.signal_data_id → h.natKey = l.natKey
  hist_id_lt : ∀ h ∈ db.signal_history, h.signal_data_id < db.next_data_id
  lat_id_lt : ∀ l ∈ db.signal_latest, l.signal_data_id < db.next_data_id
  inv : LatestInv db

/-- The empty database satisfies every invariant. -/
lemma good_emptyDB : GoodDB emptyDB := by
  refine ⟨rfl, by simp [emptyDB], by simp [emptyDB], by simp [emptyDB],
    by simp [emptyDB], ?_, ?_, ?_, ?_⟩
  · intro l hl; simp [emptyDB] at hl
  · intro h hh; simp [emptyDB] at hh
  · intro l hl; simp [emptyDB] at hl
  · intro k
    constructor
    · intro _; rfl
    · intro hne; exact absurd rfl hne

/-- Upserting never empties a table. -/
lemma upsert_ne_nil {κ : Type} [DecidableEq κ] (keyf : Row → κ) (t : List Row)
    (r : Row) : upsert keyf t r ≠ [] := by
  unfold upsert
  by_cases h : t.any (fun h' => decide (keyf h' = keyf r)) = true
  · rw [if_pos h]
    intro hc
    rw [List.map_eq_nil_iff] at hc
    rw [hc] at h
    simp at h
  · rw [if_neg h]
    simp

/-- A full-key upsert leaves the issue multiset unchanged when the full key
is already present. -/
lemma upsert_present_map_issue (t : List Row) (r : Row)
    (h : ∃ h' ∈ t, h'.fullKey = r.fullKey) :
    (upsert Row.fullKey t r).map Row.issue = t.map Row.issue := by
  rw [upsert_present Row.fullKey t r h, List.map_map]
  apply List.map_congr_left
  intro a _
  simp only [Function.comp]
  by_cases hk : a.fullKey = r.fullKey
  · rw [if_pos hk]
    have : a.issue = r.issue := congrArg Prod.snd hk
    rw [this]
  · rw [if_neg hk]

/-- The corrected flag is false exactly when some latest row for the same
natural key has a strictly greater issue. -/
lemma winsLatest_eq_false_iff (db : DB) (r : Row) :
    winsLatest db r = false ↔
      ∃ l ∈ db.signal_latest, l.natKey = r.natKey ∧ r.issue < l.issue := by
  simp [winsLatest, List.any_eq_true]

/-- Merging a staged batch with at most one row per natural key preserves
every invariant, including the latest-projection invariant. -/
lemma good_merge (db : DB) (now : Int) (rows : List CovidcastRow)
    (hg : GoodDB db) (hnd : (rows.map CovidcastRow.natKey).Nodup) :
    GoodDB (mergeStagedBatch db now rows) := by
  obtain ⟨ht1, ht2, ht3, ht4⟩ := mergeStagedBatch_tables db now rows hg.load_empty
  have hbs_keys : ((batchRows db now rows).map Row.natKey).Nodup := by
    rw [batchRows_map_natKey]; exact hnd
  have hbs_ids := batchRows_id_nodup db now rows
  have hbs_bounds := batchRows_id_bounds db now rows
  have hflt_sub : ((batchRows db now rows).filter (winsLatest db)).Sublist
      (batchRows db now rows) := List.filter_sublist _
  have hflt_keys : (((batchRows db now rows).filter (winsLatest db)).map
      Row.natKey).Nodup := (hflt_sub.map _).nodup hbs_keys
  have hflt_ids : (((batchRows db now rows).filter (winsLatest db)).map
      Row.signal_data_id).Nodup := (hflt_sub.map _).nodup hbs_ids
  have havoid_h : ∀ h ∈ db.signal_history,
      h.signal_data_id ∉ (batchRows db now rows).map Row.signal_data_id := by
    intro h hh hc
    obtain ⟨x, hx, hxid⟩ := List.mem_map.mp hc
    have := (hbs_bounds x hx).1
    have := hg.hist_id_lt h hh
    omega
  have havoid_l : ∀ l ∈ db.signal_latest,
      l.signal_data_id ∉ ((batchRows db now rows).filter (winsLatest db)).map
        Row.signal_data_id := by
    intro l hl hc
    obtain ⟨x, hx, hxid⟩ := List.mem_map.mp hc
    have := (hbs_bounds x (List.mem_of_mem_filter hx)).1
    have := hg.lat_id_lt l hl
    omega
  obtain ⟨hh_ids, hh_keys, hh_mem⟩ := foldl_upsert_nodups Row.fullKey
      (batchRows db now rows) db.signal_history hg.hist_id_nodup
      hg.hist_fullKey_nodup havoid_h hbs_ids
  obtain ⟨hl_ids, hl_keys, hl_mem⟩ := foldl_upsert_nodups Row.natKey
      ((batchRows db now rows).filter (winsLatest db)) db.signal_latest
      hg.lat_id_nodup hg.lat_natKey_nodup havoid_l hflt_ids
  refine ⟨ht3, by rw [ht1]; exact hh_keys, by rw [ht1]; exact hh_ids,
    by rw [ht2]; exact hl_keys, by rw [ht2]; exact hl_ids, ?_, ?_, ?_, ?_⟩
  · -- id/key coherence
    intro l hl h hh hid
    rw [ht2] at hl
    rw [ht1] at hh
    rcases hl_mem l hl with hlm | hlm <;> rcases hh_mem h hh with hhm | hhm
    · exact hg.id_key_coherent l hlm h hhm hid
    · exfalso
      have := (hbs_bounds h hhm).1
      have := hg.lat_id_lt l hlm
      omega
    · exfalso
      have := (hbs_bounds l (List.mem_of_mem_filter hlm)).1
      have := hg.hist_id_lt h hhm
      omega
    · have : h = l := List.inj_on_of_nodup_map hbs_ids hhm
        (List.mem_of_mem_filter hlm) hid
      rw [this]
  · -- history ids bounded
    intro h hh
    rw [ht1] at hh
    rw [ht4]
    rcases hh_mem h hh with hm | hm
    · have := hg.hist_id_lt h hm; omega
    · exact (hbs_bounds h hm).2
  · -- latest ids bounded
    intro l hl
    rw [ht2] at hl
    rw [ht4]
    rcases hl_mem l hl with hm | hm
    · have := hg.lat_id_lt l hm; omega
    · exact (hbs_bounds l (List.mem_of_mem_filter hm)).2
  · -- latest-projection invariant
    intro k
    have hPfull : ∀ a b : Row, a.fullKey = b.fullKey →
        decide (a.natKey = k) = decide (b.natKey = k) := by
      intro a b hab
      have : a.natKey = b.natKey := congrArg Prod.fst hab
      rw [this]
    have hPnat : ∀ a b : Row, a.natKey = b.natKey →
        decide (a.natKey = k) = decide (b.natKey = k) := by
      intro a b hab
      rw [hab]
    have hKH : keyHistory (mergeStagedBatch db now rows) k =
        ((batchRows db now rows).filter (fun r => decide (r.natKey = k))).foldl
          (upsert Row.fullKey) (keyHistory db k) := by
      unfold keyHistory
      rw [ht1]
      exact filter_foldl_upsert Row.fullKey _ hPfull _ _
    have hKL : keyLatest (mergeStagedBatch db now rows) k =
        ((((batchRows db now rows).filter (winsLatest db)).filter
            (fun r => decide (r.natKey = k)))).foldl
          (upsert Row.natKey) (keyLatest db k) := by
      unfold keyLatest
      rw [ht2]
      exact filter_foldl_upsert Row.natKey _ hPnat _ _
    have hfe : ((batchRows db now rows).filter (winsLatest db)).filter
        (fun r => decide (r.natKey = k)) =
        ((batchRows db now rows).filter (fun r => decide (r.natKey = k))).filter
          (winsLatest db) := by
      rw [List.filter_filter, List.filter_filter]
      exact List.filter_congr (fun x _ => Bool.and_comm _ _)
    rcases filter_key_of_nodup Row.natKey (batchRows db now rows) hbs_keys k
      with hA | ⟨R, hB, hRk⟩
    · -- no batch row for this key
      rw [hA] at hKH
      have hz : ((batchRows db now rows).filter (winsLatest db)).filter
          (fun r => decide (r.natKey = k)) = [] := by
        rw [hfe, hA]; rfl
      rw [hz] at hKL
      simp only [List.foldl_nil] at hKH hKL
      rw [hKH, hKL]
      exact hg.inv k
    · -- exactly one batch row R for this key
      rw [hB] at hKH
      simp only [List.foldl_cons, List.foldl_nil] at hKH
      have hfR : ((batchRows db now rows).filter (winsLatest db)).filter
          (fun r => decide (r.natKey = k)) =
          if winsLatest db R = true then [R] else [] := by
        rw [hfe, hB]
        simp [List.filter_cons]
      by_cases hkhe : keyHistory db k = []
      · -- fresh key
        have hlke : keyLatest db k = [] := (hg.inv k).1 hkhe
        have hwin : winsLatest db R = true := by
          cases hbool : winsLatest db R with
          | true => rfl
          | false =>
            exfalso
            obtain ⟨l, hlmem, hlkey, hlt⟩ := (winsLatest_eq_false_iff db R).mp hbool
            have : l ∈ keyLatest db k :=
              List.mem_filter.mpr ⟨hlmem, by simp [hlkey, hRk]⟩
            rw [hlke] at this
            simp at this
        rw [hfR, if_pos hwin] at hKL
        simp only [List.foldl_cons, List.foldl_nil] at hKL
        rw [hkhe] at hKH
        rw [hlke] at hKL
        constructor
        · intro hc
          rw [hKH] at hc
          exact absurd hc (upsert_ne_nil _ _ _)
        · intro _
          have h1 : upsert Row.fullKey ([] : List Row) R = [R] := rfl
          have h2 : upsert Row.natKey ([] : List Row) R = [R] := rfl
          rw [h1] at hKH
          rw [h2] at hKL
          exact ⟨R, hKL, by rw [hKH]; rfl⟩
      · -- key with existing history
        obtain ⟨l0, hl0, hl0iss⟩ := (hg.inv k).2 hkhe
        have hl0mem : l0 ∈ keyLatest db k := by rw [hl0]; simp
        have hl0lat : l0 ∈ db.signal_latest := (List.mem_filter.mp hl0mem).1
        have hl0key : l0.natKey = k :=
          of_decide_eq_true (List.mem_filter.mp hl0mem).2
        have hwiff : winsLatest db R = false ↔ R.issue < l0.issue := by
          rw [winsLatest_eq_false_iff]
          constructor
          · rintro ⟨l, hlmem, hlkey, hlt⟩
            have hmem : l ∈ keyLatest db k :=
              List.mem_filter.mpr ⟨hlmem, by simp [hlkey, hRk]⟩
            rw [hl0] at hmem
            rw [List.mem_singleton] at hmem
            rw [← hmem]
            exact hlt
          · intro hlt
            exact ⟨l0, hl0lat, by rw [hl0key, hRk], hlt⟩
        cases hwin : winsLatest db R with
        | false =>
          have hlt := hwiff.mp hwin
          rw [hwin] at hfR
          simp only [Bool.false_eq_true, if_false] at hfR
          rw [hfR] at hKL
          simp only [List.foldl_nil] at hKL
          constructor
          · intro hc
            rw [hKH] at hc
            exact absurd hc (upsert_ne_nil _ _ _)
          · intro _
            refine ⟨l0, by rw [hKL, hl0], ?_⟩
            rw [hKH]
            by_cases hpres : ∃ h' ∈ keyHistory db k, h'.fullKey = R.fullKey
            · rw [upsert_present_map_issue _ _ hpres]
              exact hl0iss
            · push_neg at hpres
              rw [upsert_absent Row.fullKey _ R hpres, List.map_append]
              rw [eq_comm, intMax?_eq_some_iff]
              obtain ⟨hmem, hbound⟩ := intMax?_spec hl0iss.symm
              constructor
              · exact List.mem_append.mpr (Or.inl hmem)
              · intro y hy
                rcases List.mem_append.mp hy with h | h
                · exact hbound y h
                · simp only [List.map_cons, List.map_nil, List.mem_cons,
                    List.not_mem_nil, or_false] at h
                  rw [h]
                  exact le_of_lt hlt
        | true =>
          have hge : l0.issue ≤ R.issue := by
            by_contra hc
            push_neg at hc
            have := hwiff.mpr hc
            rw [hwin] at this
            exact absurd this (by simp)
          rw [hwin] at hfR
          simp only [if_pos] at hfR
          rw [hfR] at hKL
          simp only [List.foldl_cons, List.foldl_nil] at hKL
          rw [hl0] at hKL
          have hup : upsert Row.natKey [l0] R = [R] := by
            rw [upsert_present Row.natKey [l0] R
              ⟨l0, by simp, by rw [hl0key, hRk]⟩]
            have : l0.natKey = R.natKey := by rw [hl0key, hRk]
            simp [this]
          rw [hup] at hKL
          constructor
          · intro hc
            rw [hKH] at hc
            exact absurd hc (upsert_ne_nil _ _ _)
          · intro _
            refine ⟨R, hKL, ?_⟩
            rw [hKH]
            by_cases hpres : ∃ h' ∈ keyHistory db k, h'.fullKey = R.fullKey
            · rw [upsert_present_map_issue _ _ hpres]
              obtain ⟨h', hh', hkey⟩ := hpres
              have hRiss : R.issue ∈ (keyHistory db k).map Row.issue := by
                have hiss : h'.issue = R.issue := congrArg Prod.snd hkey
                rw [← hiss]
                exact List.mem_map_of_mem _ hh'
              obtain ⟨hmem, hbound⟩ := intMax?_spec hl0iss.symm
              have heq : R.issue = l0.issue := le_antisymm (hbound _ hRiss) hge
              rw [heq]
              exact hl0iss
            · push_neg at hpres
              rw [upsert_absent Row.fullKey _ R hpres, List.map_append]
              rw [eq_comm, intMax?_eq_some_iff]
              obtain ⟨hmem, hbound⟩ := intMax?_spec hl0iss.symm
              constructor
              · exact List.mem_append.mpr (Or.inr (by simp))
              · intro y hy
                rcases List.mem_append.mp hy with h | h
                · exact le_trans (hbound y h) hge
                · simp only [List.map_cons, List.map_nil, List.mem_cons,
                    List.not_mem_nil, or_false] at h
                  rw [h]

/-! ### Resolution of deletion requests -/

/-- The scratch row for one deletion request after both resolution
statements: `delete_history_id` from the history view, `delete_latest_id`
and `update_latest` from the latest view, all joined on the full key. -/
def resolvedTmpRow (db : DB) (q : DeletionRow) : TmpRow :=
  { req := q
    delete_history_id := (findByFullKey db.signal_history q.fullKey).map Row.signal_data_id
    delete_latest_id := (findByFullKey db.signal_latest q.fullKey).map Row.signal_data_id
    update_latest := (findByFullKey db.signal_latest q.fullKey).isSome }

/-- The two resolution statements produce exactly the resolved rows. -/
lemma resTmp_eq (db : DB) (reqs : List DeletionRow) :
    mark_for_update_latest db (add_history_id db (reqs.map TmpRow.ofReq)) =
      reqs.map (resolvedTmpRow db) := by
  unfold add_history_id mark_for_update_latest
  rw [List.map_map, List.map_map]
  apply List.map_congr_left
  intro q _
  simp only [Function.comp, TmpRow.ofReq]
  cases h1 : findByFullKey db.signal_history q.fullKey <;>
    cases h2 : findByFullKey db.signal_latest q.fullKey <;>
      simp [resolvedTmpRow, h1, h2]

/-- What a successful find returns. -/
lemma findByFullKey_mem {t : List Row} {fk : NatKey × Int} {r : Row}
    (hf : findByFullKey t fk = some r) : r ∈ t ∧ r.fullKey = fk := by
  unfold findByFullKey at hf
  have h1 := List.find?_some hf
  simp only [decide_eq_true_eq] at h1
  exact ⟨List.mem_of_find?_eq_some hf, h1⟩

/-- In a full-key-unique table the find returns the member itself. -/
lemma findByFullKey_self (t : List Row) (hnd : (t.map Row.fullKey).Nodup)
    (h : Row) (hm : h ∈ t) : findByFullKey t h.fullKey = some h := by
  cases heq : findByFullKey t h.fullKey with
  | none =>
    exfalso
    rw [findByFullKey, List.find?_eq_none] at heq
    exact absurd (by simp : decide (h.fullKey = h.fullKey) = true) (by simpa using heq h hm)
  | some h'' =>
    obtain ⟨hmem, hkey⟩ := findByFullKey_mem heq
    rw [List.inj_on_of_nodup_map hnd hmem hm hkey]

/-- Natural-key uniqueness implies full-key uniqueness. -/
lemma fullKey_nodup_of_natKey_nodup (t : List Row)
    (h : (t.map Row.natKey).Nodup) : (t.map Row.fullKey).Nodup := by
  have heq : t.map Row.natKey = (t.map Row.fullKey).map Prod.fst := by
    rw [List.map_map]; rfl
  rw [heq] at h
  exact h.of_map _

/-- `dedupFirst` keeps exactly the members. -/
lemma mem_dedupFirst {κ : Type} [DecidableEq κ] (l : List κ) (x : κ) :
    x ∈ dedupFirst l ↔ x ∈ l := by
  have main : ∀ (l : List κ) (acc : List κ),
      (x ∈ l.foldl (fun acc k => if k ∈ acc then acc else acc ++ [k]) acc ↔
        x ∈ acc ∨ x ∈ l) := by
    intro l
    induction l with
    | nil => intro acc; simp
    | cons k t ih =>
      intro acc
      simp only [List.foldl_cons]
      by_cases hk : k ∈ acc
      · rw [if_pos hk, ih acc]
        constructor
        · rintro (h | h)
          · exact Or.inl h
          · exact Or.inr (List.mem_cons_of_mem _ h)
        · rintro (h | h)
          · exact Or.inl h
          · rcases List.mem_cons.mp h with h | h
            · exact Or.inl (h ▸ hk)
            · exact Or.inr h
      · rw [if_neg hk, ih (acc ++ [k])]
        simp only [List.mem_append, List.mem_singleton, List.mem_cons]
        tauto
  unfold dedupFirst
  rw [main l []]
  simp

/-- `dedupFirst` produces a duplicate-free list. -/
lemma dedupFirst_nodup {κ : Type} [DecidableEq κ] (l : List κ) :
    (dedupFirst l).Nodup := by
  have main : ∀ (l : List κ) (acc : List κ), acc.Nodup →
      (l.foldl (fun acc k => if k ∈ acc then acc else acc ++ [k]) acc).Nodup := by
    intro l
    induction l with
    | nil => intro acc h; exact h
    | cons k t ih =>
      intro acc hacc
      simp only [List.foldl_cons]
      by_cases hk : k ∈ acc
      · rw [if_pos hk]; exact ih acc hacc
      · rw [if_neg hk]
        refine ih _ (List.Nodup.append hacc (by simp) ?_)
        intro x hx hx2
        rw [List.mem_singleton] at hx2
        exact hk (hx2 ▸ hx)
  exact main l [] (by simp)

/-- No recompute row for a key without remaining history rows. -/
lemma recomputeRow_eq_none_iff (hist : List Row) (k : NatKey) :
    recomputeRow hist k = none ↔
      hist.filter (fun h => decide (h.natKey = k)) = [] := by
  cases hf : hist.filter (fun h => decide (h.natKey = k)) <;>
    simp [recomputeRow, hf]

/-- The recompute row carries the group's key, the first group row's id, and
the group's maximum issue. -/
lemma recomputeRow_some (hist : List Row) (k : NatKey) (n : Row)
    (h : recomputeRow hist k = some n) :
    n.natKey = k ∧
    (∃ g0 ∈ hist, g0.natKey = k ∧ n.signal_data_id = g0.signal_data_id) ∧
    some n.issue =
      intMax? ((hist.filter (fun h => decide (h.natKey = k))).map Row.issue) := by
  cases hf : hist.filter (fun h => decide (h.natKey = k)) with
  | nil => rw [recomputeRow, hf] at h; exact absurd h (by simp)
  | cons g0 rest =>
    rw [recomputeRow, hf] at h
    simp only [Option.some.injEq] at h
    have hg0 : g0 ∈ hist ∧ g0.natKey = k := by
      have : g0 ∈ hist.filter (fun h => decide (h.natKey = k)) := by
        rw [hf]; simp
      exact ⟨(List.mem_filter.mp this).1,
        of_decide_eq_true (List.mem_filter.mp this).2⟩
    refine ⟨by rw [← h, groupRow]; exact hg0.2, ⟨g0, hg0.1, hg0.2, by rw [← h]; rfl⟩, ?_⟩
    rw [← h]
    show some ((groupRow g0 rest).issue) = intMax? (g0.issue :: rest.map Row.issue)
    have h1 : (groupRow g0 rest).issue =
        (rest.map Row.issue).foldl max g0.issue := by
      rw [groupRow]
      rw [List.foldl_map]
    rw [h1, foldl_max_intMax? (rest.map Row.issue) g0.issue]
    cases hr : intMax? (rest.map Row.issue) <;> simp [intMax?, hr]

/-- Under unique ids and full keys, a history row is hit by the id-based
deletion exactly when some request targets its full key. -/
lemma hitH_iff (db : DB) (reqs : List DeletionRow) (hg : GoodDB db) (h : Row)
    (hm : h ∈ db.signal_history) :
    ((reqs.map (resolvedTmpRow db)).any
        (fun d => decide (d.delete_history_id = some h.signal_data_id)) = true) ↔
      ∃ q ∈ reqs, q.fullKey = h.fullKey := by
  rw [List.any_eq_true]
  constructor
  · rintro ⟨d, hd, hdec⟩
    obtain ⟨q, hq, hdq⟩ := List.mem_map.mp hd
    rw [← hdq] at hdec
    simp only [resolvedTmpRow, decide_eq_true_eq] at hdec
    cases hfind : findByFullKey db.signal_history q.fullKey with
    | none => rw [hfind] at hdec; simp at hdec
    | some h'' =>
      rw [hfind] at hdec
      simp only [Option.map_some', Option.some.injEq] at hdec
      obtain ⟨hmem'', hkey''⟩ := findByFullKey_mem hfind
      have heq : h'' = h :=
        List.inj_on_of_nodup_map hg.hist_id_nodup hmem'' hm hdec
      exact ⟨q, hq, by rw [← hkey'', heq]⟩
  · rintro ⟨q, hq, hkey⟩
    refine ⟨resolvedTmpRow db q, List.mem_map_of_mem _ hq, ?_⟩
    have hfind : findByFullKey db.signal_history q.fullKey = some h := by
      rw [hkey]
      exact findByFullKey_self _ hg.hist_fullKey_nodup h hm
    simp [resolvedTmpRow, hfind]

/-- Under unique ids and natural keys, a latest row is hit by the id-based
deletion exactly when some request targets its full key. -/
lemma hitL_iff (db : DB) (reqs : List DeletionRow) (hg : GoodDB db) (l : Row)
    (hm : l ∈ db.signal_latest) :
    ((reqs.map (resolvedTmpRow db)).any
        (fun d => decide (d.delete_latest_id = some l.signal_data_id)) = true) ↔
      ∃ q ∈ reqs, q.fullKey = l.fullKey := by
  rw [List.any_eq_true]
  constructor
  · rintro ⟨d, hd, hdec⟩
    obtain ⟨q, hq, hdq⟩ := List.mem_map.mp hd
    rw [← hdq] at hdec
    simp only [resolvedTmpRow, decide_eq_true_eq] at hdec
    cases hfind : findByFullKey db.signal_latest q.fullKey with
    | none => rw [hfind] at hdec; simp at hdec
    | some l'' =>
      rw [hfind] at hdec
      simp only [Option.map_some', Option.some.injEq] at hdec
      obtain ⟨hmem'', hkey''⟩ := findByFullKey_mem hfind
      have heq : l'' = l :=
        List.inj_on_of_nodup_map hg.lat_id_nodup hmem'' hm hdec
      exact ⟨q, hq, by rw [← hkey'', heq]⟩
  · rintro ⟨q, hq, hkey⟩
    refine ⟨resolvedTmpRow db q, List.mem_map_of_mem _ hq, ?_⟩
    have hfind : findByFullKey db.signal_latest q.fullKey = some l := by
      rw [hkey]
      exact findByFullKey_self _
        (fullKey_nodup_of_natKey_nodup _ hg.lat_natKey_nodup) l hm
    simp [resolvedTmpRow, hfind]

/-- The recompute keys are the natural keys of requests whose full key
matched a latest row. -/
lemma mem_keys_iff (db : DB) (reqs : List DeletionRow) (hg : GoodDB db)
    (k : NatKey) :
    (k ∈ dedupFirst ((((reqs.map (resolvedTmpRow db)).filter
        (fun d => d.update_latest)).map (fun d => d.req.natKey)))) ↔
      ∃ q ∈ reqs, q.natKey = k ∧ ∃ l ∈ db.signal_latest, l.fullKey = q.fullKey := by
  rw [mem_dedupFirst]
  constructor
  · intro hmem
    obtain ⟨d, hd, hk⟩ := List.mem_map.mp hmem
    obtain ⟨hd', hupd⟩ := List.mem_filter.mp hd
    obtain ⟨q, hq, hdq⟩ := List.mem_map.mp hd'
    rw [← hdq] at hupd hk
    simp only [resolvedTmpRow] at hupd hk
    cases hfind : findByFullKey db.signal_latest q.fullKey with
    | none => rw [hfind] at hupd; simp at hupd
    | some l =>
      obtain ⟨hlm, hlk⟩ := findByFullKey_mem hfind
      exact ⟨q, hq, hk, l, hlm, hlk⟩
  · rintro ⟨q, hq, hkey, l, hlm, hlk⟩
    have hfind : findByFullKey db.signal_latest q.fullKey = some l := by
      rw [← hlk]
      exact findByFullKey_self _
        (fullKey_nodup_of_natKey_nodup _ hg.lat_natKey_nodup) l hlm
    refine List.mem_map.mpr ⟨resolvedTmpRow db q, List.mem_filter.mpr
      ⟨List.mem_map_of_mem _ hq, by simp [resolvedTmpRow, hfind]⟩, hkey⟩

/-- Two filters commute. -/
lemma filter_swap {α : Type} (p q : α → Bool) (l : List α) :
    (l.filter p).filter q = (l.filter q).filter p := by
  rw [List.filter_filter, List.filter_filter]
  exact List.filter_congr (fun x _ => Bool.and_comm _ _)

/-- The keys of the recomputed rows are the recompute keys that still have
history rows. -/
lemma recompute_map_natKey (hist : List Row) (K : List NatKey) :
    (K.filterMap (recomputeRow hist)).map Row.natKey =
      K.filter (fun k => (recomputeRow hist k).isSome) := by
  induction K with
  | nil => rfl
  | cons k ks ih =>
    rw [List.filterMap_cons, List.filter_cons]
    cases hrk : recomputeRow hist k with
    | none => simp [hrk, ih]
    | some n =>
      have : n.natKey = k := (recomputeRow_some hist k n hrk).1
      simp [hrk, this, ih]

/-- A successful deletion-engine call preserves every invariant, including
the latest-projection invariant. -/
lemma good_delete (db : DB) (arg : CcDeletions) (db' : DB) (total : Option Nat)
    (hg : GoodDB db) (hdel : delete_batch db arg = .ok (db', total)) :
    GoodDB db' := by
  cases harg : parseDeletions arg with
  | none =>
    simp only [delete_batch, harg] at hdel
    exact absurd hdel (by simp)
  | some reqs =>
    simp only [delete_batch, harg, Except.ok.injEq, Prod.mk.injEq] at hdel
    obtain ⟨hdb', -⟩ := hdel
    rw [resTmp_eq db reqs] at hdb'
    -- names for the intermediate tables
    have hH3 : db'.signal_history = db.signal_history.filter (fun h =>
        !((reqs.map (resolvedTmpRow db)).any
          (fun d => decide (d.delete_history_id = some h.signal_data_id)))) := by
      rw [← hdb']
      rfl
    have hL3 : db'.signal_latest =
        (db.signal_latest.filter (fun l =>
          !((reqs.map (resolvedTmpRow db)).any
            (fun d => decide (d.delete_latest_id = some l.signal_data_id))))) ++
        (dedupFirst ((((reqs.map (resolvedTmpRow db)).filter
            (fun d => d.update_latest)).map (fun d => d.req.natKey)))).filterMap
          (recomputeRow (db.signal_history.filter (fun h =>
            !((reqs.map (resolvedTmpRow db)).any
              (fun d => decide (d.delete_history_id = some h.signal_data_id)))))) := by
      rw [← hdb']
      rfl
    have hNext : db'.next_data_id = db.next_data_id := by rw [← hdb']; rfl
    have hLoad : db'.signal_load = db.signal_load := by rw [← hdb']; rfl
    -- abbreviations
    set tmp := reqs.map (resolvedTmpRow db) with htmp
    set hist1 := db.signal_history.filter (fun h =>
        !(tmp.any (fun d => decide (d.delete_history_id = some h.signal_data_id))))
      with hhist1
    set lat2 := db.signal_latest.filter (fun l =>
        !(tmp.any (fun d => decide (d.delete_latest_id = some l.signal_data_id))))
      with hlat2def
    set K := dedupFirst (((tmp.filter (fun d => d.update_latest)).map
        (fun d => d.req.natKey))) with hKdef
    set news := K.filterMap (recomputeRow hist1) with hnewsdef
    -- basic sublist facts
    have hH1sub : hist1.Sublist db.signal_history := List.filter_sublist _
    have hL2sub : lat2.Sublist db.signal_latest := List.filter_sublist _
    have hh1_ids : (hist1.map Row.signal_data_id).Nodup :=
      (hH1sub.map _).nodup hg.hist_id_nodup
    have hh1_keys : (hist1.map Row.fullKey).Nodup :=
      (hH1sub.map _).nodup hg.hist_fullKey_nodup
    have hl2_ids : (lat2.map Row.signal_data_id).Nodup :=
      (hL2sub.map _).nodup hg.lat_id_nodup
    have hl2_keys : (lat2.map Row.natKey).Nodup :=
      (hL2sub.map _).nodup hg.lat_natKey_nodup
    have hK_nodup : K.Nodup := dedupFirst_nodup _
    -- key characterisation of news
    have hnews_keys_eq : news.map Row.natKey =
        K.filter (fun k => (recomputeRow hist1 k).isSome) :=
      recompute_map_natKey hist1 K
    have hnews_keys_nodup : (news.map Row.natKey).Nodup := by
      rw [hnews_keys_eq]
      exact hK_nodup.filter _
    have hnews_mem : ∀ n ∈ news, n.natKey ∈ K ∧
        ∃ g0 ∈ hist1, g0.natKey = n.natKey ∧ n.signal_data_id = g0.signal_data_id := by
      intro n hn
      obtain ⟨k', hk', hrk⟩ := List.mem_filterMap.mp hn
      obtain ⟨hkey, ⟨g0, hg0m, hg0k, hg0id⟩, _⟩ := recomputeRow_some hist1 k' n hrk
      exact ⟨by rw [hkey]; exact hk', g0, hg0m, by rw [hkey]; exact hg0k, hg0id⟩
    have hnews_ids : (news.map Row.signal_data_id).Nodup := by
      rw [hnewsdef, List.map_filterMap]
      refine List.Nodup.filterMap ?_ hK_nodup
      intro k1 k2 b hb1 hb2
      cases h1 : recomputeRow hist1 k1 with
      | none => rw [h1] at hb1; simp at hb1
      | some n1 =>
        cases h2 : recomputeRow hist1 k2 with
        | none => rw [h2] at hb2; simp at hb2
        | some n2 =>
          rw [h1] at hb1; rw [h2] at hb2
          simp only [Option.map_some', Option.mem_def, Option.some.injEq] at hb1 hb2
          obtain ⟨hk1, ⟨g1, hg1m, hg1k, hg1id⟩, -⟩ := recomputeRow_some hist1 k1 n1 h1
          obtain ⟨hk2, ⟨g2, hg2m, hg2k, hg2id⟩, -⟩ := recomputeRow_some hist1 k2 n2 h2
          have hid12 : g1.signal_data_id = g2.signal_data_id := by
            rw [← hg1id, ← hg2id, hb1, hb2]
          have : g1 = g2 := List.inj_on_of_nodup_map hh1_ids hg1m hg2m hid12
          rw [← hg1k, ← hg2k, this]
    -- a recompute key has no surviving latest row
    have hkeys_char : ∀ k, k ∈ K ↔
        ∃ q ∈ reqs, q.natKey = k ∧ ∃ l ∈ db.signal_latest, l.fullKey = q.fullKey :=
      fun k => mem_keys_iff db reqs hg k
    have hno_survivor : ∀ k ∈ K, ∀ l2 ∈ lat2, l2.natKey ≠ k := by
      intro k hk l2 hl2 hkey2
      obtain ⟨q, hq, hqk, l, hlm, hlk⟩ := (hkeys_char k).mp hk
      have hlkey : l.natKey = k := by
        have := congrArg Prod.fst hlk
        simp only [Row.fullKey, DeletionRow.fullKey] at this
        rw [this, hqk]
      obtain ⟨hl2m, hl2keep⟩ := List.mem_filter.mp hl2
      have hl2l : l2 = l :=
        List.inj_on_of_nodup_map hg.lat_natKey_nodup hl2m hlm (by rw [hkey2, hlkey])
      have hhit : (tmp.any
          (fun d => decide (d.delete_latest_id = some l.signal_data_id))) = true :=
        (hitL_iff db reqs hg l hlm).mpr ⟨q, hq, hlk.symm⟩
      rw [hl2l, hhit] at hl2keep
      exact absurd hl2keep (by simp)
    -- assembled invariants
    refine ⟨by rw [hLoad]; exact hg.load_empty, ?_, ?_, ?_, ?_, ?_, ?_, ?_, ?_⟩
    · rw [hH3]; exact hh1_keys
    · rw [hH3]; exact hh1_ids
    · -- latest natural keys unique
      rw [hL3, List.map_append]
      refine List.Nodup.append hl2_keys hnews_keys_nodup ?_
      intro x hx hx2
      obtain ⟨l2, hl2, hl2x⟩ := List.mem_map.mp hx
      obtain ⟨n, hn, hnx⟩ := List.mem_map.mp hx2
      have hkK : n.natKey ∈ K := (hnews_mem n hn).1
      exact hno_survivor n.natKey hkK l2 hl2 (by rw [hl2x, ← hnx])
    · -- latest ids unique
      rw [hL3, List.map_append]
      refine List.Nodup.append hl2_ids hnews_ids ?_
      intro x hx hx2
      obtain ⟨l2, hl2, hl2x⟩ := List.mem_map.mp hx
      obtain ⟨n, hn, hnx⟩ := List.mem_map.mp hx2
      obtain ⟨hkK, g0, hg0m, hg0k, hg0id⟩ := hnews_mem n hn
      have hl2m : l2 ∈ db.signal_latest := (List.mem_filter.mp hl2).1
      have hg0hist : g0 ∈ db.signal_history := hH1sub.mem hg0m
      have hcoh : g0.natKey = l2.natKey :=
        hg.id_key_coherent l2 hl2m g0 hg0hist (by rw [← hg0id, hnx, hl2x])
      exact hno_survivor n.natKey hkK l2 hl2 (by rw [← hcoh, hg0k])
    · -- id/key coherence
      intro l hl h hh hid
      rw [hL3] at hl
      rw [hH3] at hh
      rcases List.mem_append.mp hl with hl2 | hln
      · exact hg.id_key_coherent l (List.mem_filter.mp hl2).1 h (hH1sub.mem hh) hid
      · obtain ⟨hkK, g0, hg0m, hg0k, hg0id⟩ := hnews_mem l hln
        have : h = g0 := List.inj_on_of_nodup_map hh1_ids hh hg0m (by rw [hid, hg0id])
        rw [this, hg0k]
    · -- history ids bounded
      intro h hh
      rw [hH3] at hh
      rw [hNext]
      exact hg.hist_id_lt h (hH1sub.mem hh)
    · -- latest ids bounded
      intro l hl
      rw [hL3] at hl
      rw [hNext]
      rcases List.mem_append.mp hl with hl2 | hln
      · exact hg.lat_id_lt l (List.mem_filter.mp hl2).1
      · obtain ⟨-, g0, hg0m, -, hg0id⟩ := hnews_mem l hln
        rw [hg0id]
        exact hg.hist_id_lt g0 (hH1sub.mem hg0m)
    · -- latest-projection invariant
      intro k
      have hKH3 : keyHistory db' k = (keyHistory db k).filter (fun h =>
          !(tmp.any (fun d => decide (d.delete_history_id = some h.signal_data_id)))) := by
        unfold keyHistory
        rw [hH3]
        exact filter_swap _ _ _
      have hKL3 : keyLatest db' k = ((keyLatest db k).filter (fun l =>
          !(tmp.any (fun d => decide (d.delete_latest_id = some l.signal_data_id))))) ++
          news.filter (fun r => decide (r.natKey = k)) := by
        unfold keyLatest
        rw [hL3, List.filter_append]
        congr 1
        exact filter_swap _ _ _
      have hnews_nok : k ∉ K → news.filter (fun r => decide (r.natKey = k)) = [] := by
        intro hk
        rw [List.filter_eq_nil_iff]
        intro n hn
        simp only [decide_eq_true_eq]
        intro hnk
        exact hk (hnk ▸ (hnews_mem n hn).1)
      by_cases hlke : keyLatest db k = []
      · -- no latest row before: no history rows before, none after
        have hhke : keyHistory db k = [] := by
          by_contra hc
          obtain ⟨l0, hl0, -⟩ := (hg.inv k).2 hc
          rw [hlke] at hl0
          exact absurd hl0 (by simp)
        have hH3k : keyHistory db' k = [] := by
          rw [hKH3, hhke]
          rfl
        have hkK : k ∉ K := by
          intro hk
          obtain ⟨q, hq, hqk, l, hlm, hlk⟩ := (hkeys_char k).mp hk
          have hlkey : l.natKey = k := by
            have := congrArg Prod.fst hlk
            simp only [Row.fullKey, DeletionRow.fullKey] at this
            rw [this, hqk]
          have : l ∈ keyLatest db k :=
            List.mem_filter.mpr ⟨hlm, by simp [hlkey]⟩
          rw [hlke] at this
          exact absurd this (by simp)
        have hL3k : keyLatest db' k = [] := by
          rw [hKL3, hlke, hnews_nok hkK]
          rfl
        exact ⟨fun _ => hL3k, fun hne => absurd hH3k hne⟩
      · -- there is a latest row l0 with the maximal issue
        have hhke : keyHistory db k ≠ [] := by
          intro hc
          exact hlke ((hg.inv k).1 hc)
        obtain ⟨l0, hl0, hl0iss⟩ := (hg.inv k).2 hhke
        have hl0mem : l0 ∈ keyLatest db k := by rw [hl0]; simp
        have hl0lat : l0 ∈ db.signal_latest := (List.mem_filter.mp hl0mem).1
        have hl0key : l0.natKey = k :=
          of_decide_eq_true (List.mem_filter.mp hl0mem).2
        by_cases hTM : ∃ q ∈ reqs, q.fullKey = l0.fullKey
        · -- the latest version itself is targeted
          have hhit : (tmp.any (fun d =>
              decide (d.delete_latest_id = some l0.signal_data_id))) = true :=
            (hitL_iff db reqs hg l0 hl0lat).mpr hTM
          have hlat2k : (keyLatest db k).filter (fun l =>
              !(tmp.any (fun d => decide (d.delete_latest_id = some l.signal_data_id)))) = [] := by
            rw [hl0]
            simp [List.filter_cons, hhit]
          have hkK : k ∈ K := by
            obtain ⟨q0, hq0, hq0k⟩ := hTM
            refine (hkeys_char k).mpr ⟨q0, hq0, ?_, l0, hl0lat, hq0k.symm⟩
            have := congrArg Prod.fst hq0k
            simp only [Row.fullKey, DeletionRow.fullKey] at this
            rw [this, hl0key]
          cases hrk : recomputeRow hist1 k with
          | none =>
            have hH3k : keyHistory db' k = [] := by
              have hfe := (recomputeRow_eq_none_iff hist1 k).mp hrk
              unfold keyHistory
              rw [hH3]
              exact hfe
            have hnews_k : news.filter (fun r => decide (r.natKey = k)) = [] := by
              rw [List.filter_eq_nil_iff]
              intro n hn
              simp only [decide_eq_true_eq]
              intro hnk
              obtain ⟨k', hk', hrk'⟩ := List.mem_filterMap.mp hn
              have : k' = k := by
                rw [← (recomputeRow_some hist1 k' n hrk').1, hnk]
              rw [this, hrk] at hrk'
              exact absurd hrk' (by simp)
            have hL3k : keyLatest db' k = [] := by
              rw [hKL3, hlat2k, hnews_k]
              rfl
            exact ⟨fun _ => hL3k, fun hne => absurd hH3k hne⟩
          | some n =>
            obtain ⟨hnkey, -, hniss⟩ := recomputeRow_some hist1 k n hrk
            have hnnews : n ∈ news := List.mem_filterMap.mpr ⟨k, hkK, hrk⟩
            have hnews_k : news.filter (fun r => decide (r.natKey = k)) = [n] := by
              rcases filter_key_of_nodup Row.natKey news hnews_keys_nodup k
                with hcase | ⟨n', hcase, -⟩
              · exfalso
                have : n ∈ news.filter (fun r => decide (r.natKey = k)) :=
                  List.mem_filter.mpr ⟨hnnews, by simp [hnkey]⟩
                rw [hcase] at this
                exact absurd this (by simp)
              · have : n ∈ news.filter (fun r => decide (r.natKey = k)) :=
                  List.mem_filter.mpr ⟨hnnews, by simp [hnkey]⟩
                rw [hcase] at this
                rw [List.mem_singleton] at this
                rw [hcase, ← this]
            have hL3k : keyLatest db' k = [n] := by
              rw [hKL3, hlat2k, hnews_k]
              rfl
            have hH3k : keyHistory db' k =
                hist1.filter (fun h => decide (h.natKey = k)) := by
              unfold keyHistory
              rw [hH3]
            constructor
            · intro hc
              rw [hH3k] at hc
              rw [← recomputeRow_eq_none_iff hist1 k] at hc
              rw [hrk] at hc
              exact absurd hc (by simp)
            · intro _
              refine ⟨n, hL3k, ?_⟩
              rw [hH3k]
              exact hniss
        · -- the latest version survives
          have hnohit : (tmp.any (fun d =>
              decide (d.delete_latest_id = some l0.signal_data_id))) = false := by
            rw [← Bool.not_eq_true]
            intro hc
            exact hTM ((hitL_iff db reqs hg l0 hl0lat).mp hc)
          have hlat2k : (keyLatest db k).filter (fun l =>
              !(tmp.any (fun d => decide (d.delete_latest_id = some l.signal_data_id)))) = [l0] := by
            rw [hl0]
            simp [List.filter_cons, hnohit]
          have hkK : k ∉ K := by
            intro hk
            obtain ⟨q, hq, hqk, l, hlm, hlk⟩ := (hkeys_char k).mp hk
            have hlkey : l.natKey = k := by
              have := congrArg Prod.fst hlk
              simp only [Row.fullKey, DeletionRow.fullKey] at this
              rw [this, hqk]
            have hmem : l ∈ keyLatest db k :=
              List.mem_filter.mpr ⟨hlm, by simp [hlkey]⟩
            rw [hl0] at hmem
            rw [List.mem_singleton] at hmem
            exact hTM ⟨q, hq, by rw [← hlk, hmem]⟩
          have hL3k : keyLatest db' k = [l0] := by
            rw [hKL3, hlat2k, hnews_nok hkK]
            rfl
          -- the maximal history row survives
          obtain ⟨hmemM, hboundM⟩ := intMax?_spec hl0iss.symm
          obtain ⟨hM, hhM, hMiss⟩ := List.mem_map.mp hmemM
          have hMkey : hM.natKey = k :=
            of_decide_eq_true (List.mem_filter.mp hhM).2
          have hMhist : hM ∈ db.signal_history := (List.mem_filter.mp hhM).1
          have hMfull : hM.fullKey = l0.fullKey := by
            unfold Row.fullKey
            rw [hMkey, hMiss, hl0key]
          have hMsurv : hM ∈ keyHistory db' k := by
            rw [hKH3]
            refine List.mem_filter.mpr ⟨hhM, ?_⟩
            simp only [Bool.not_eq_true']
            rw [← Bool.not_eq_true]
            intro hc
            obtain ⟨q, hq, hqk⟩ := (hitH_iff db reqs hg hM hMhist).mp hc
            exact hTM ⟨q, hq, by rw [hqk, hMfull]⟩
          have hH3ne : keyHistory db' k ≠ [] := List.ne_nil_of_mem hMsurv
          refine ⟨fun hc => absurd hc hH3ne, fun _ => ⟨l0, hL3k, ?_⟩⟩
          rw [eq_comm, intMax?_eq_some_iff]
          constructor
          · rw [← hMiss]
            exact List.mem_map_of_mem _ hMsurv
          · intro y hy
            obtain ⟨hy', hy'm, hy'iss⟩ := List.mem_map.mp hy
            have hy'old : hy' ∈ keyHistory db k := by
              rw [hKH3] at hy'm
              exact (List.mem_filter.mp hy'm).1
            rw [← hy'iss]
            exact hboundM _ (List.mem_map_of_mem _ hy'old)

/-! ### C1: the amended latest-projection invariant -/

/-- Every state reachable by merges of batches with pairwise-distinct natural
keys and by successful deletes satisfies all the structural invariants. -/
lemma good_of_reachableND (db : DB) (h : ReachableND db) : GoodDB db := by
  induction h with
  | init => exact good_emptyDB
  | merge db now rows hnd _ ih => exact good_merge db now rows ih hnd
  | deleteStep db arg db' total _ hdel ih => exact good_delete db arg db' total ih hdel

/-- C1 (amended): in every store state reachable by merge-coordinator runs on
staged batches containing at most one row per natural key and by successful
deletion-engine calls, every natural key with at least one History row has
exactly one Latest row whose issue is the maximum History issue for that key,
and every natural key with no History rows has no Latest row. (The original
claim, quantified over all staged batches, fails: see
latest_invariant_counterexample.) -/
theorem latest_invariant_of_reachableND (db : DB) (h : ReachableND db) :
    LatestInv db :=
  (good_of_reachableND db h).inv

/-- Witness: the invariant holds at the concrete state obtained by merging the
single-row sample batch into the empty store. -/
theorem latest_invariant_of_reachableND_witness :
    LatestInv (mergeStagedBatch emptyDB 0 [sampleDraft]) :=
  latest_invariant_of_reachableND (mergeStagedBatch emptyDB 0 [sampleDraft])
    (ReachableND.merge emptyDB 0 [sampleDraft] (by decide) ReachableND.init)

end Covidcast
